import Mathlib

/-!
Shallow embedding of the `MosaicGenerator` tile-placement engine from
`MosaicGrid.tsx` (the page-aware version; the second, simpler version in the
repository has identical `constructor`, `canPlaceTile` and `getRandomTileType`
code).

Modelling conventions:
* JavaScript numbers used as grid coordinates/dimensions are modelled as `Int`;
  tile weights and `Math.random()` draws as `ℚ` (exact rationals standing for
  the real-valued draws).
* `Math.random()` is modelled as an injected stream `rng : ℕ → ℚ`; a genuine
  JS run satisfies `ValidRng rng` (every draw in `[0,1)`).  Each phase threads
  the index of the next unconsumed draw.  The extra draw the source spends on
  the `id` string of a placed tile is omitted, as is the `id` field itself
  (`Date.now()` wall-clock plus a random suffix; no claim concerns ids).
* The occupancy matrix `this.grid` is modelled as the list of cells that have
  been written `true`.  A JS read `this.grid[r][c]` first indexes the outer
  array: for `r` outside `[0, gridHeight)` it yields `undefined` and the inner
  index access throws a `TypeError`.  We model a throw as `Option.none`
  propagating out of the call.  An inner read `row[c]` never throws: for any
  integer `c` it yields the stored value, or `undefined` (falsy, i.e. `false`)
  if that index was never written.  Writes `row[c] = true` succeed for any
  integer `c` (out-of-range writes create plain properties that later reads
  see), which is why occupancy is a cell list rather than a rectangle.
* Methods that can throw return `Option`; pure helpers stay total.
-/

set_option linter.unusedVariables false

namespace Mosaic

/-- Palette entry: `interface TileType { width; height; weight }`. -/
structure TileType where
  width : Int
  height : Int
  weight : ℚ
deriving DecidableEq, Repr, Inhabited

/-- Output tile: `interface Tile` (the `id` field is omitted, see module header). -/
structure Tile where
  row : Int
  col : Int
  width : Int
  height : Int
  color : Int
  text : Option String := none
  url : Option String := none
  fontSize : Option ℚ := none
deriving DecidableEq, Repr

/-- Fixed-tile spec: `interface FixedTile`. -/
structure FixedTile where
  row : Int
  col : Int
  width : Int
  height : Int
  color : Int
  text : Option String := none
  url : Option String := none
  altRow : Option Int := none
  altCol : Option Int := none
  altWidth : Option Int := none
  altHeight : Option Int := none
  fontSize : Option ℚ := none
deriving DecidableEq, Repr

/-- `GRID_CONFIG.MAX_PLACEMENT_ATTEMPTS`. -/
def MAX_PLACEMENT_ATTEMPTS : ℕ := 1000

/-- The weighted tile palette `TILE_TYPES` (weights `0.3, 0.2, ...` as exact
rationals). -/
def TILE_TYPES : List TileType :=
  [⟨1, 1, 3/10⟩, ⟨2, 1, 1/5⟩, ⟨1, 2, 1/5⟩, ⟨2, 2, 1/10⟩,
   ⟨1, 3, 2/25⟩, ⟨3, 1, 2/25⟩, ⟨2, 3, 1/50⟩, ⟨3, 2, 1/50⟩]

/-- Occupancy state: the set (as a list) of cells `(r, c)` holding `true`. -/
abbrev Occ := List (Int × Int)

/-- The value of a JS read `this.grid[r][c]` when row `r` exists: the stored
boolean, with never-written indices reading as falsy `undefined`. -/
def gridGet (occ : Occ) (r c : Int) : Bool :=
  decide ((r, c) ∈ occ)

/-- The integer interval `[lo, hi)` as a list, in increasing order (the index
sequence of a JS `for` loop from `lo` while `< hi`). -/
def intRange (lo hi : Int) : List Int :=
  (List.range (hi - lo).toNat).map (fun i : ℕ => lo + (i : Int))

/-- `normalizeCoordinate`: negative coordinates count from the end. -/
def normalizeCoordinate (coordinate dimension : Int) : Int :=
  if coordinate < 0 then dimension + coordinate else coordinate

/-- `resetGrid`: a freshly (re)allocated grid has every cell `false`. -/
def resetGrid : Occ := []

/-- One row of `canPlaceTile`'s scan: the inner `for (c = col; c < col+width)`
loop at row `r`.  If the inner loop runs at all (`width ≥ 1`) while `r` is not
an allocated row index, the very first read `this.grid[r][col]` throws
(`none`).  Otherwise the row contributes `true` iff no scanned cell is
occupied. -/
def rowCheck (H : Int) (occ : Occ) (r col width : Int) : Option Bool :=
  if width ≤ 0 then some true
  else if r < 0 ∨ H ≤ r then none
  else some ((intRange col (col + width)).all (fun c => !gridGet occ r c))

/-- The outer `for (r = row; r < row+height)` loop of `canPlaceTile`: scan the
rows in order, stopping at the first occupied cell (`false`) or throw. -/
def canPlaceRows (H : Int) (occ : Occ) (col width : Int) : List Int → Option Bool
  | [] => some true
  | r :: rs =>
    match rowCheck H occ r col width with
    | none => none
    | some ok => if ok then canPlaceRows H occ col width rs else some false

/-- `canPlaceTile(row, col, width, height)`: bounds pre-check (upper bounds
only!) then the occupancy scan. -/
def canPlaceTile (W H : Int) (occ : Occ) (row col width height : Int) : Option Bool :=
  if H < row + height ∨ W < col + width then some false
  else canPlaceRows H occ col width (intRange row (row + height))

/-- The rectangle `[row, row+height) × [col, col+width)` as a cell list. -/
def rectCells (row col width height : Int) : List (Int × Int) :=
  (intRange row (row + height)).flatMap
    (fun r => (intRange col (col + width)).map (fun c => (r, c)))

/-- `placeTile`: mark every cell of the rectangle occupied.  The source method
would throw on a row index outside `[0, gridHeight)`, but it is only ever
invoked directly after `canPlaceTile` returned `true` on the same arguments,
which rules that out; we model it as the corresponding total state update. -/
def placeTile (occ : Occ) (row col width height : Int) : Occ :=
  occ ++ rectCells row col width height

/-- `getRandomTileType`'s accumulation loop over the palette: return the first
entry whose cumulative weight exceeds `rand`, if any. -/
def getRandomTileTypeLoop (rand : ℚ) : ℚ → List TileType → Option TileType
  | _, [] => none
  | cumulative, t :: ts =>
    if rand < cumulative + t.weight then some t
    else getRandomTileTypeLoop rand (cumulative + t.weight) ts

/-- `getRandomTileType()`: weighted sampling by cumulative distribution, with
`TILE_TYPES[0]` as the fallback when the loop exhausts the palette. -/
def getRandomTileType (rand : ℚ) : TileType :=
  match getRandomTileTypeLoop rand 0 TILE_TYPES with
  | some t => t
  | none => TILE_TYPES.headI

/-- Placement strategy, as in `determinePlacementStrategy`'s string union. -/
inductive Strategy where
  | primary
  | alternative
  | fallback
deriving DecidableEq, Repr

/-- Normalized position record returned by `getNormalizedTilePosition`. -/
structure Pos where
  row : Int
  col : Int
  width : Int
  height : Int
deriving DecidableEq, Repr

/-- `getNormalizedTilePosition(tile, useAlternative)`: alternate coordinates
are used only when requested and both `altRow`/`altCol` are present; alternate
width/height default to the primary ones (`??`). -/
def getNormalizedTilePosition (W H : Int) (tile : FixedTile) (useAlternative : Bool) : Pos :=
  match useAlternative, tile.altRow, tile.altCol with
  | true, some ar, some ac =>
    ⟨normalizeCoordinate ar (H - 1), normalizeCoordinate ac (W - 1),
     tile.altWidth.getD tile.width, tile.altHeight.getD tile.height⟩
  | _, _, _ =>
    ⟨normalizeCoordinate tile.row (H - 1), normalizeCoordinate tile.col (W - 1),
     tile.width, tile.height⟩

/-- `isValidPlacement`: the stricter usable-span bound (dimension minus one)
and then `canPlaceTile`; JS `&&` short-circuits, so `canPlaceTile` (and any
throw inside it) is reached only when both bound checks pass. -/
def isValidPlacement (W H : Int) (occ : Occ) (row col width height : Int) : Option Bool :=
  if col + width ≤ W - 1 ∧ row + height ≤ H - 1 then
    canPlaceTile W H occ row col width height
  else some false

/-- `Array.prototype.every` with a callback that can throw: test the elements
in order, short-circuiting at the first `false`. -/
def everyCheck (f : FixedTile → Option Bool) : List FixedTile → Option Bool
  | [] => some true
  | t :: ts =>
    match f t with
    | none => none
    | some b => if b then everyCheck f ts else some false

/-- The per-tile primary test inside `determinePlacementStrategy`. -/
def checkPrimary (W H : Int) (occ : Occ) (tile : FixedTile) : Option Bool :=
  let p := getNormalizedTilePosition W H tile false
  isValidPlacement W H occ p.row p.col p.width p.height

/-- The per-tile alternate test inside `determinePlacementStrategy`: tiles
without both alternate coordinates re-test their primary position. -/
def checkAlternate (W H : Int) (occ : Occ) (tile : FixedTile) : Option Bool :=
  match tile.altRow, tile.altCol with
  | some _, some _ =>
    let p := getNormalizedTilePosition W H tile true
    isValidPlacement W H occ p.row p.col p.width p.height
  | _, _ => checkPrimary W H occ tile

/-- `determinePlacementStrategy()`: all-primary feasibility, then
all-alternate feasibility, else fallback.  `occ` is the occupancy the method
reads (`this.grid`, freshly reset when called from `generatePattern`). -/
def determinePlacementStrategy (W H : Int) (occ : Occ) (fixedTiles : List FixedTile) :
    Option Strategy :=
  match everyCheck (checkPrimary W H occ) fixedTiles with
  | none => none
  | some canPlacePrimary =>
    if canPlacePrimary then some Strategy.primary
    else
      match everyCheck (checkAlternate W H occ) fixedTiles with
      | none => none
      | some canPlaceAlternative =>
        some (if canPlaceAlternative then Strategy.alternative else Strategy.fallback)

/-- `createTileFromFixed`: carry color/text/url/fontSize over from the spec
(the random `id` is omitted, see module header). -/
def createTileFromFixed (fixedTile : FixedTile) (row col width height : Int) : Tile :=
  { row := row, col := col, width := width, height := height,
    color := fixedTile.color, text := fixedTile.text, url := fixedTile.url,
    fontSize := fixedTile.fontSize }

/-- The loop of `placeFixedTiles` under the primary or alternative strategy:
for each spec in order, re-validate individually and place on success (a
failing spec is skipped).  `tiles` is the shared output array being pushed to. -/
def placeFixedLoop (W H : Int) (useAlternative : Bool) :
    List FixedTile → List Tile → Occ → Option (List Tile × Occ)
  | [], tiles, occ => some (tiles, occ)
  | ft :: fts, tiles, occ =>
    let p := getNormalizedTilePosition W H ft useAlternative
    match isValidPlacement W H occ p.row p.col p.width p.height with
    | none => none
    | some ok =>
      if ok then
        placeFixedLoop W H useAlternative fts
          (tiles ++ [createTileFromFixed ft p.row p.col p.width p.height])
          (placeTile occ p.row p.col p.width p.height)
      else
        placeFixedLoop W H useAlternative fts tiles occ

/-- `placeEssentialTiles`: find the tile whose text is exactly
`"Charlie Beutter"` and place it at its primary position if it individually
fits. -/
def placeEssentialTiles (W H : Int) (fixedTiles : List FixedTile) (tiles : List Tile)
    (occ : Occ) : Option (List Tile × Occ) :=
  match fixedTiles.find? (fun t => t.text == some "Charlie Beutter") with
  | none => some (tiles, occ)
  | some charlieTile =>
    let p := getNormalizedTilePosition W H charlieTile false
    match isValidPlacement W H occ p.row p.col p.width p.height with
    | none => none
    | some ok =>
      if ok then
        some (tiles ++ [createTileFromFixed charlieTile p.row p.col p.width p.height],
              placeTile occ p.row p.col p.width p.height)
      else
        some (tiles, occ)

/-- `useAlternative = strategy === 'alternative'` in `placeFixedTiles`. -/
def strategyUsesAlt : Strategy → Bool
  | Strategy.alternative => true
  | _ => false

/-- `placeFixedTiles(tiles, strategy)`. -/
def placeFixedTiles (W H : Int) (fixedTiles : List FixedTile) (strategy : Strategy)
    (tiles : List Tile) (occ : Occ) : Option (List Tile × Occ) :=
  match strategy with
  | Strategy.fallback => placeEssentialTiles W H fixedTiles tiles occ
  | _ => placeFixedLoop W H (strategyUsesAlt strategy) fixedTiles tiles occ

/-- One iteration of the `placeRandomTiles` attempt loop.  Draw consumption
mirrors the source (shape, row, col, and a color draw on success; the omitted
`id` draw aside). -/
def randomAttempt (W H : Int) (rng : ℕ → ℚ) :
    List Tile × Occ × ℕ → Option (List Tile × Occ × ℕ)
  | (tiles, occ, n) =>
    let tileType := getRandomTileType (rng n)
    let row := Int.floor (rng (n + 1) * (H : ℚ))
    let col := Int.floor (rng (n + 2) * (W : ℚ))
    match canPlaceTile W H occ row col tileType.width tileType.height with
    | none => none
    | some ok =>
      if ok then
        some (tiles ++ [{ row := row, col := col,
                          width := tileType.width, height := tileType.height,
                          color := Int.floor (rng (n + 3) * 8) + 1 }],
              placeTile occ row col tileType.width tileType.height, n + 4)
      else
        some (tiles, occ, n + 3)

/-- `placeRandomTiles(tiles)`: a fixed budget of placement attempts. -/
def placeRandomTiles (W H : Int) (rng : ℕ → ℚ) :
    ℕ → List Tile × Occ × ℕ → Option (List Tile × Occ × ℕ)
  | 0, st => some st
  | fuel + 1, st =>
    match randomAttempt W H rng st with
    | none => none
    | some st' => placeRandomTiles W H rng fuel st'

/-- The grid cells in row-major scan order, as visited by `fillEmptyCells`. -/
def gridCellsRowMajor (W H : Int) : List (Int × Int) :=
  (intRange 0 H).flatMap (fun r => (intRange 0 W).map (fun c => (r, c)))

/-- The body of `fillEmptyCells` at one cell: if unoccupied, push a unit tile
with a fresh random color and mark the cell occupied. -/
def fillCell (rng : ℕ → ℚ) :
    List Tile × Occ × ℕ → Int × Int → List Tile × Occ × ℕ
  | (tiles, occ, n), (r, c) =>
    if gridGet occ r c then (tiles, occ, n)
    else (tiles ++ [{ row := r, col := c, width := 1, height := 1,
                      color := Int.floor (rng n * 8) + 1 }],
          occ ++ [(r, c)], n + 1)

/-- `fillEmptyCells(tiles)`: row-major scan placing unit tiles on every still
unoccupied cell.  All indices lie in range, so it never throws. -/
def fillEmptyCells (W H : Int) (rng : ℕ → ℚ) (tiles : List Tile) (occ : Occ) (n : ℕ) :
    List Tile × Occ × ℕ :=
  (gridCellsRowMajor W H).foldl (fillCell rng) (tiles, occ, n)

/-- `generatePattern()`: reset, strategy decision, fixed tiles, bounded random
attempts, gap filling; returns the shared `tiles` array. -/
def generatePattern (W H : Int) (fixedTiles : List FixedTile) (rng : ℕ → ℚ) :
    Option (List Tile) :=
  match determinePlacementStrategy W H resetGrid fixedTiles with
  | none => none
  | some strategy =>
    match placeFixedTiles W H fixedTiles strategy [] resetGrid with
    | none => none
    | some (tiles1, occ1) =>
      match placeRandomTiles W H rng MAX_PLACEMENT_ATTEMPTS (tiles1, occ1, 0) with
      | none => none
      | some (tiles2, occ2, n2) => some (fillEmptyCells W H rng tiles2 occ2 n2).1

/-- The `MosaicGenerator` constructor: fields are assigned and `resetGrid()`
allocates `Array(gridHeight)` (a JS `RangeError` for negative lengths, modelled
as `none`) and maps each row to `Array(gridWidth).fill(false)` (throwing for a
negative width only when at least one row exists).  No dimension validation is
performed; on success the occupancy is all-unoccupied. -/
def constructGenerator (W H : Int) : Option Occ :=
  if H < 0 then none
  else if 1 ≤ H ∧ W < 0 then none
  else some resetGrid

/-- The RNG contract of `Math.random()`: every draw lies in `[0, 1)`. -/
def ValidRng (rng : ℕ → ℚ) : Prop :=
  ∀ n, 0 ≤ rng n ∧ rng n < 1

/-- A concrete valid RNG stream used for concrete runs: every draw is `0`. -/
def zeroRng : ℕ → ℚ := fun _ => 0

/-- The tile a fixed spec produces when placed with `useAlternative`: its
normalized position with the spec data carried over. -/
def placedFixedTile (W H : Int) (s : FixedTile) (u : Bool) : Tile :=
  let p := getNormalizedTilePosition W H s u
  createTileFromFixed s p.row p.col p.width p.height

/-- `t` covers grid cell `(r, c)`. -/
def coversCell (t : Tile) (r c : Int) : Prop :=
  t.row ≤ r ∧ r < t.row + t.height ∧ t.col ≤ c ∧ c < t.col + t.width

instance (t : Tile) (r c : Int) : Decidable (coversCell t r c) := by
  unfold coversCell
  infer_instance

/-- Two tiles have non-intersecting rectangles. -/
def tilesDisjoint (t1 t2 : Tile) : Prop :=
  ∀ r c, coversCell t1 r c → coversCell t2 r c → False

/-- The running invariant of one generation pass: the occupancy holds exactly
the cells covered by the tiles pushed so far, and those tiles are pairwise
non-intersecting. -/
def InvOcc (tiles : List Tile) (occ : Occ) : Prop :=
  (∀ r c, (r, c) ∈ occ ↔ ∃ t ∈ tiles, coversCell t r c) ∧
  tiles.Pairwise tilesDisjoint

section BasicLemmas

theorem mem_intRange {a lo hi : Int} : a ∈ intRange lo hi ↔ lo ≤ a ∧ a < hi := by
  unfold intRange
  rw [List.mem_map]
  constructor
  · rintro ⟨i, hi', rfl⟩
    rw [List.mem_range] at hi'
    omega
  · intro h
    refine ⟨(a - lo).toNat, ?_, ?_⟩
    · rw [List.mem_range]
      omega
    · omega

theorem gridGet_iff {occ : Occ} {r c : Int} : gridGet occ r c = true ↔ (r, c) ∈ occ := by
  simp [gridGet]

theorem mem_rectCells {p : Int × Int} {row col width height : Int} :
    p ∈ rectCells row col width height ↔
      (row ≤ p.1 ∧ p.1 < row + height) ∧ (col ≤ p.2 ∧ p.2 < col + width) := by
  obtain ⟨x, y⟩ := p
  simp only [rectCells, List.mem_flatMap, List.mem_map]
  constructor
  · rintro ⟨r, hr, c, hc, h⟩
    rw [Prod.mk.injEq] at h
    obtain ⟨rfl, rfl⟩ := h
    exact ⟨mem_intRange.mp hr, mem_intRange.mp hc⟩
  · rintro ⟨h1, h2⟩
    exact ⟨x, mem_intRange.mpr h1, y, mem_intRange.mpr h2, rfl⟩

theorem mem_placeTile {p : Int × Int} {occ : Occ} {row col width height : Int} :
    p ∈ placeTile occ row col width height ↔
      p ∈ occ ∨ ((row ≤ p.1 ∧ p.1 < row + height) ∧ (col ≤ p.2 ∧ p.2 < col + width)) := by
  simp [placeTile, mem_rectCells]

theorem mem_gridCellsRowMajor {p : Int × Int} {W H : Int} :
    p ∈ gridCellsRowMajor W H ↔ (0 ≤ p.1 ∧ p.1 < H) ∧ (0 ≤ p.2 ∧ p.2 < W) := by
  obtain ⟨x, y⟩ := p
  simp only [gridCellsRowMajor, List.mem_flatMap, List.mem_map]
  constructor
  · rintro ⟨r, hr, c, hc, h⟩
    rw [Prod.mk.injEq] at h
    obtain ⟨rfl, rfl⟩ := h
    exact ⟨mem_intRange.mp hr, mem_intRange.mp hc⟩
  · rintro ⟨h1, h2⟩
    exact ⟨x, mem_intRange.mpr h1, y, mem_intRange.mpr h2, rfl⟩

theorem rowCheck_eq_some_true {H : Int} {occ : Occ} {r col width : Int} :
    rowCheck H occ r col width = some true ↔
      width ≤ 0 ∨ ((0 ≤ r ∧ r < H) ∧ ∀ c, col ≤ c → c < col + width → (r, c) ∉ occ) := by
  unfold rowCheck
  split
  · rename_i hw
    simp [hw]
  · rename_i hw
    split
    · rename_i hr
      simp only [reduceCtorEq, false_iff]
      rintro (h | ⟨⟨h1, h2⟩, -⟩) <;> omega
    · rename_i hr
      simp only [Option.some.injEq, List.all_eq_true, Bool.not_eq_eq_eq_not, Bool.not_true]
      constructor
      · intro h
        refine Or.inr ⟨by omega, fun c h1 h2 hmem => ?_⟩
        have := h c (mem_intRange.mpr ⟨h1, h2⟩)
        rw [← gridGet_iff] at hmem
        simp [hmem] at this
      · rintro (h | ⟨-, h⟩) c hc
        · omega
        · have := h c (mem_intRange.mp hc).1 (mem_intRange.mp hc).2
          simpa [gridGet] using this

theorem rowCheck_ne_none {H : Int} {occ : Occ} {r col width : Int}
    (h : width ≤ 0 ∨ (0 ≤ r ∧ r < H)) : rowCheck H occ r col width ≠ none := by
  unfold rowCheck
  split
  · simp
  · split
    · rename_i h1 h2
      omega
    · simp

theorem rowCheck_none_conditions {H : Int} {occ : Occ} {r col width : Int}
    (h : rowCheck H occ r col width = none) : 0 < width ∧ (r < 0 ∨ H ≤ r) := by
  by_contra hc
  exact rowCheck_ne_none (by omega) h

theorem canPlaceRows_eq_some_true {H : Int} {occ : Occ} {col width : Int} :
    ∀ {rs : List Int}, canPlaceRows H occ col width rs = some true ↔
      ∀ r ∈ rs, rowCheck H occ r col width = some true
  | [] => by simp [canPlaceRows]
  | r :: rs => by
    rcases h : rowCheck H occ r col width with - | b
    · simp [canPlaceRows, h]
    · rcases b with - | -
      · simp [canPlaceRows, h]
      · simp only [canPlaceRows, h, if_true, @canPlaceRows_eq_some_true H occ col width rs,
          List.mem_cons]
        constructor
        · rintro hall r' (rfl | hr')
          · exact h
          · exact hall r' hr'
        · intro hall r' hr'
          exact hall r' (Or.inr hr')

theorem canPlaceRows_isSome {H : Int} {occ : Occ} {col width : Int} :
    ∀ {rs : List Int}, (∀ r ∈ rs, rowCheck H occ r col width ≠ none) →
      (canPlaceRows H occ col width rs).isSome
  | [], _ => by simp [canPlaceRows]
  | r :: rs, h => by
    rcases hr : rowCheck H occ r col width with - | b
    · exact absurd hr (h r (List.mem_cons_self r rs))
    · rcases b with - | -
      · simp [canPlaceRows, hr]
      · simpa [canPlaceRows, hr] using
          canPlaceRows_isSome (fun r' hr' => h r' (List.mem_cons_of_mem r hr'))

theorem canPlaceTile_true_bounds {W H : Int} {occ : Occ} {row col width height : Int}
    (h : canPlaceTile W H occ row col width height = some true) :
    row + height ≤ H ∧ col + width ≤ W := by
  unfold canPlaceTile at h
  split at h
  · simp at h
  · rename_i hb
    push_neg at hb
    omega

theorem canPlaceTile_true_not_mem {W H : Int} {occ : Occ} {row col width height : Int}
    (h : canPlaceTile W H occ row col width height = some true) :
    ∀ r c, row ≤ r → r < row + height → col ≤ c → c < col + width → (r, c) ∉ occ := by
  unfold canPlaceTile at h
  split at h
  · simp at h
  · intro r c h1 h2 h3 h4
    have hr := canPlaceRows_eq_some_true.mp h r (mem_intRange.mpr ⟨h1, h2⟩)
    rcases rowCheck_eq_some_true.mp hr with hw | ⟨-, hfree⟩
    · omega
    · exact hfree c h3 h4

theorem canPlaceTile_true_row_nonneg {W H : Int} {occ : Occ} {row col width height : Int}
    (hw : 1 ≤ width) (hh : 1 ≤ height)
    (h : canPlaceTile W H occ row col width height = some true) : 0 ≤ row := by
  unfold canPlaceTile at h
  split at h
  · simp at h
  · have hr := canPlaceRows_eq_some_true.mp h row (mem_intRange.mpr ⟨le_refl _, by omega⟩)
    rcases rowCheck_eq_some_true.mp hr with h1 | ⟨⟨h1, -⟩, -⟩
    · omega
    · exact h1

theorem isValidPlacement_true {W H : Int} {occ : Occ} {row col width height : Int}
    (h : isValidPlacement W H occ row col width height = some true) :
    col + width ≤ W - 1 ∧ row + height ≤ H - 1 ∧
      canPlaceTile W H occ row col width height = some true := by
  unfold isValidPlacement at h
  split at h
  · rename_i hb
    exact ⟨hb.1, hb.2, h⟩
  · simp at h

end BasicLemmas

section Invariant

theorem InvOcc_nil : InvOcc [] [] :=
  ⟨by simp, List.Pairwise.nil⟩

theorem InvOcc.place {W H : Int} {tiles : List Tile} {occ : Occ} (inv : InvOcc tiles occ)
    (t : Tile) (hcp : canPlaceTile W H occ t.row t.col t.width t.height = some true) :
    InvOcc (tiles ++ [t]) (placeTile occ t.row t.col t.width t.height) := by
  constructor
  · intro r c
    rw [mem_placeTile]
    simp only [List.mem_append, List.mem_singleton]
    constructor
    · rintro (hmem | hrect)
      · obtain ⟨t', ht', hcov⟩ := (inv.1 r c).mp hmem
        exact ⟨t', Or.inl ht', hcov⟩
      · exact ⟨t, Or.inr rfl, hrect.1.1, hrect.1.2, hrect.2.1, hrect.2.2⟩
    · rintro ⟨t', ht' | rfl, hcov⟩
      · exact Or.inl ((inv.1 r c).mpr ⟨t', ht', hcov⟩)
      · exact Or.inr ⟨⟨hcov.1, hcov.2.1⟩, hcov.2.2.1, hcov.2.2.2⟩
  · rw [List.pairwise_append]
    refine ⟨inv.2, List.pairwise_singleton _ _, ?_⟩
    intro a ha b hb
    rw [List.mem_singleton] at hb
    subst hb
    intro r c hca hcb
    exact canPlaceTile_true_not_mem hcp r c hcb.1 hcb.2.1 hcb.2.2.1 hcb.2.2.2
      ((inv.1 r c).mpr ⟨a, ha, hca⟩)

theorem InvOcc.fill1 {tiles : List Tile} {occ : Occ} (inv : InvOcc tiles occ)
    {r c : Int} (t : Tile) (hrow : t.row = r) (hcol : t.col = c)
    (hw : t.width = 1) (hh : t.height = 1) (hfree : (r, c) ∉ occ) :
    InvOcc (tiles ++ [t]) (occ ++ [(r, c)]) := by
  have hcov : ∀ x y, coversCell t x y ↔ x = r ∧ y = c := by
    intro x y
    unfold coversCell
    rw [hrow, hcol, hw, hh]
    omega
  constructor
  · intro x y
    simp only [List.mem_append, List.mem_singleton, Prod.mk.injEq]
    constructor
    · rintro (hmem | ⟨rfl, rfl⟩)
      · obtain ⟨t', ht', hc⟩ := (inv.1 x y).mp hmem
        exact ⟨t', Or.inl ht', hc⟩
      · exact ⟨t, Or.inr rfl, (hcov x y).mpr ⟨rfl, rfl⟩⟩
    · rintro ⟨t', ht' | rfl, hc⟩
      · exact Or.inl ((inv.1 x y).mpr ⟨t', ht', hc⟩)
      · rcases (hcov x y).mp hc with ⟨rfl, rfl⟩
        exact Or.inr ⟨rfl, rfl⟩
  · rw [List.pairwise_append]
    refine ⟨inv.2, List.pairwise_singleton _ _, ?_⟩
    intro a ha b hb
    rw [List.mem_singleton] at hb
    subst hb
    intro x y hca hcb
    rcases (hcov x y).mp hcb with ⟨rfl, rfl⟩
    exact hfree ((inv.1 x y).mpr ⟨a, ha, hca⟩)

theorem placeFixedLoop_inv {W H : Int} {u : Bool} :
    ∀ {fts : List FixedTile} {tiles : List Tile} {occ : Occ} {out : List Tile} {occ' : Occ},
      InvOcc tiles occ → placeFixedLoop W H u fts tiles occ = some (out, occ') →
      InvOcc out occ'
  | [], tiles, occ, out, occ', inv, h => by
    simp only [placeFixedLoop, Option.some.injEq, Prod.mk.injEq] at h
    obtain ⟨rfl, rfl⟩ := h
    exact inv
  | ft :: fts, tiles, occ, out, occ', inv, h => by
    simp only [placeFixedLoop] at h
    rcases hv : isValidPlacement W H occ (getNormalizedTilePosition W H ft u).row
        (getNormalizedTilePosition W H ft u).col (getNormalizedTilePosition W H ft u).width
        (getNormalizedTilePosition W H ft u).height with - | b
    · rw [hv] at h
      simp at h
    · rw [hv] at h
      rcases b with - | -
      · simp only [Bool.false_eq_true, if_false] at h
        exact placeFixedLoop_inv inv h
      · simp only [if_true] at h
        exact placeFixedLoop_inv
          (inv.place (createTileFromFixed ft (getNormalizedTilePosition W H ft u).row
            (getNormalizedTilePosition W H ft u).col (getNormalizedTilePosition W H ft u).width
            (getNormalizedTilePosition W H ft u).height) (isValidPlacement_true hv).2.2) h

theorem placeEssentialTiles_inv {W H : Int} {specs : List FixedTile} {tiles : List Tile}
    {occ : Occ} {out : List Tile} {occ' : Occ} (inv : InvOcc tiles occ)
    (h : placeEssentialTiles W H specs tiles occ = some (out, occ')) : InvOcc out occ' := by
  simp only [placeEssentialTiles] at h
  split at h
  · simp only [Option.some.injEq, Prod.mk.injEq] at h
    obtain ⟨rfl, rfl⟩ := h
    exact inv
  · split at h
    · simp at h
    · rename_i ch heq ok hv
      split at h
      · rename_i hok
        subst hok
        simp only [Option.some.injEq, Prod.mk.injEq] at h
        obtain ⟨rfl, rfl⟩ := h
        exact inv.place _ (isValidPlacement_true hv).2.2
      · simp only [Option.some.injEq, Prod.mk.injEq] at h
        obtain ⟨rfl, rfl⟩ := h
        exact inv

theorem placeFixedTiles_inv {W H : Int} {specs : List FixedTile} {strat : Strategy}
    {tiles : List Tile} {occ : Occ} {out : List Tile} {occ' : Occ} (inv : InvOcc tiles occ)
    (h : placeFixedTiles W H specs strat tiles occ = some (out, occ')) : InvOcc out occ' := by
  rcases strat with - | - | -
  · exact placeFixedLoop_inv inv h
  · exact placeFixedLoop_inv inv h
  · exact placeEssentialTiles_inv inv h

theorem randomAttempt_inv {W H : Int} {rng : ℕ → ℚ} {tiles : List Tile} {occ : Occ} {n : ℕ}
    {res : List Tile × Occ × ℕ} (inv : InvOcc tiles occ)
    (h : randomAttempt W H rng (tiles, occ, n) = some res) : InvOcc res.1 res.2.1 := by
  simp only [randomAttempt] at h
  split at h
  · simp at h
  · rename_i ok hv
    split at h
    · rename_i hok
      subst hok
      simp only [Option.some.injEq] at h
      subst h
      exact inv.place _ hv
    · simp only [Option.some.injEq] at h
      subst h
      exact inv

theorem placeRandomTiles_inv {W H : Int} {rng : ℕ → ℚ} :
    ∀ {fuel : ℕ} {st res : List Tile × Occ × ℕ}, InvOcc st.1 st.2.1 →
      placeRandomTiles W H rng fuel st = some res → InvOcc res.1 res.2.1
  | 0, st, res, inv, h => by
    simp only [placeRandomTiles, Option.some.injEq] at h
    subst h
    exact inv
  | fuel + 1, st, res, inv, h => by
    simp only [placeRandomTiles] at h
    rcases ha : randomAttempt W H rng st with - | st'
    · rw [ha] at h
      simp at h
    · rw [ha] at h
      obtain ⟨tiles, occ, n⟩ := st
      exact placeRandomTiles_inv (randomAttempt_inv inv ha) h

theorem fillCell_eq (rng : ℕ → ℚ) (tiles : List Tile) (occ : Occ) (n : ℕ) (r c : Int) :
    fillCell rng (tiles, occ, n) (r, c) =
      if (r, c) ∈ occ then (tiles, occ, n)
      else (tiles ++ [{ row := r, col := c, width := 1, height := 1,
                        color := Int.floor (rng n * 8) + 1 }], occ ++ [(r, c)], n + 1) := by
  unfold fillCell
  by_cases h : (r, c) ∈ occ <;> simp [gridGet, h]

theorem fillFold_inv {rng : ℕ → ℚ} :
    ∀ {cells : List (Int × Int)} {st : List Tile × Occ × ℕ}, InvOcc st.1 st.2.1 →
      InvOcc (cells.foldl (fillCell rng) st).1 (cells.foldl (fillCell rng) st).2.1
  | [], st, inv => inv
  | p :: cells, st, inv => by
    rw [List.foldl_cons]
    apply fillFold_inv
    obtain ⟨tiles, occ, n⟩ := st
    obtain ⟨r, c⟩ := p
    rw [fillCell_eq]
    by_cases hmem : (r, c) ∈ occ
    · rw [if_pos hmem]
      exact inv
    · rw [if_neg hmem]
      exact inv.fill1 _ rfl rfl rfl rfl hmem

theorem fillFold_occ_mono {rng : ℕ → ℚ} :
    ∀ {cells : List (Int × Int)} {st : List Tile × Occ × ℕ} {q : Int × Int},
      q ∈ st.2.1 → q ∈ (cells.foldl (fillCell rng) st).2.1
  | [], st, q, h => h
  | p :: cells, st, q, h => by
    rw [List.foldl_cons]
    apply fillFold_occ_mono
    obtain ⟨tiles, occ, n⟩ := st
    obtain ⟨r, c⟩ := p
    rw [fillCell_eq]
    by_cases hmem : (r, c) ∈ occ
    · rw [if_pos hmem]
      exact h
    · rw [if_neg hmem]
      exact List.mem_append_left _ h

theorem fillFold_covers {rng : ℕ → ℚ} :
    ∀ {cells : List (Int × Int)} {st : List Tile × Occ × ℕ} {p : Int × Int},
      p ∈ cells → p ∈ (cells.foldl (fillCell rng) st).2.1
  | p0 :: cells, st, p, hp => by
    rw [List.foldl_cons]
    rcases List.mem_cons.mp hp with rfl | hmem
    · apply fillFold_occ_mono
      obtain ⟨tiles, occ, n⟩ := st
      obtain ⟨r, c⟩ := p
      rw [fillCell_eq]
      by_cases hmem : (r, c) ∈ occ
      · rw [if_pos hmem]
        exact hmem
      · rw [if_neg hmem]
        simp
    · exact fillFold_covers hmem

theorem generatePattern_parts {W H : Int} {specs : List FixedTile} {rng : ℕ → ℚ}
    {ts : List Tile} (h : generatePattern W H specs rng = some ts) :
    ∃ strat tiles1 occ1 tiles2 occ2 n2,
      determinePlacementStrategy W H resetGrid specs = some strat ∧
      placeFixedTiles W H specs strat [] resetGrid = some (tiles1, occ1) ∧
      placeRandomTiles W H rng MAX_PLACEMENT_ATTEMPTS (tiles1, occ1, 0) =
        some (tiles2, occ2, n2) ∧
      ts = (fillEmptyCells W H rng tiles2 occ2 n2).1 := by
  unfold generatePattern at h
  split at h
  · simp at h
  · rename_i strat h1
    split at h
    · simp at h
    · rename_i tiles1 occ1 h2
      split at h
      · simp at h
      · rename_i tiles2 occ2 n2 h3
        exact ⟨strat, tiles1, occ1, tiles2, occ2, n2, h1, h2, h3, (Option.some.inj h).symm⟩

/-- The central invariant theorem: any completed generation pass ends with its
tile list and some final occupancy satisfying `InvOcc`, and with every in-grid
cell occupied. -/
theorem generatePattern_inv {W H : Int} {specs : List FixedTile} {rng : ℕ → ℚ}
    {ts : List Tile} (h : generatePattern W H specs rng = some ts) :
    ∃ occF : Occ, InvOcc ts occF ∧
      ∀ r c : Int, 0 ≤ r → r < H → 0 ≤ c → c < W → (r, c) ∈ occF := by
  obtain ⟨strat, tiles1, occ1, tiles2, occ2, n2, h1, h2, h3, hts⟩ := generatePattern_parts h
  have inv1 : InvOcc tiles1 occ1 := placeFixedTiles_inv InvOcc_nil h2
  have inv2 : InvOcc tiles2 occ2 :=
    @placeRandomTiles_inv W H rng MAX_PLACEMENT_ATTEMPTS (tiles1, occ1, 0) _ inv1 h3
  refine ⟨(fillEmptyCells W H rng tiles2 occ2 n2).2.1, ?_, ?_⟩
  · rw [hts]
    exact @fillFold_inv rng _ (tiles2, occ2, n2) inv2
  · intro r c h1' h2' h3' h4'
    exact fillFold_covers (mem_gridCellsRowMajor.mpr ⟨⟨h1', h2'⟩, h3', h4'⟩)

end Invariant

section Characterization

/-- Pushing to a shared `tiles` array only appends: the fixed-tile loop with
accumulator `tiles ++ tiles'` produces the same placements as with `tiles'`,
prefixed by `tiles`. -/
theorem placeFixedLoop_acc {W H : Int} {u : Bool} :
    ∀ (fts : List FixedTile) (tiles tiles' : List Tile) (occ : Occ),
      placeFixedLoop W H u fts (tiles ++ tiles') occ =
        (placeFixedLoop W H u fts tiles' occ).map (fun q => (tiles ++ q.1, q.2))
  | [], tiles, tiles', occ => by simp [placeFixedLoop]
  | ft :: fts, tiles, tiles', occ => by
    simp only [placeFixedLoop]
    rcases hv : isValidPlacement W H occ (getNormalizedTilePosition W H ft u).row
        (getNormalizedTilePosition W H ft u).col (getNormalizedTilePosition W H ft u).width
        (getNormalizedTilePosition W H ft u).height with - | b
    · rfl
    · rcases b with - | -
      · simp only [Bool.false_eq_true, if_false]
        exact placeFixedLoop_acc fts tiles tiles' occ
      · simp only [if_true]
        rw [List.append_assoc]
        exact placeFixedLoop_acc fts tiles
          (tiles' ++ [createTileFromFixed ft (getNormalizedTilePosition W H ft u).row
            (getNormalizedTilePosition W H ft u).col (getNormalizedTilePosition W H ft u).width
            (getNormalizedTilePosition W H ft u).height]) _

theorem placeEssentialTiles_acc {W H : Int} (specs : List FixedTile)
    (tiles tiles' : List Tile) (occ : Occ) :
    placeEssentialTiles W H specs (tiles ++ tiles') occ =
      (placeEssentialTiles W H specs tiles' occ).map (fun q => (tiles ++ q.1, q.2)) := by
  simp only [placeEssentialTiles]
  split
  · rfl
  · rename_i ch heq
    rcases hv : isValidPlacement W H occ (getNormalizedTilePosition W H ch false).row
        (getNormalizedTilePosition W H ch false).col (getNormalizedTilePosition W H ch false).width
        (getNormalizedTilePosition W H ch false).height with - | b
    · rfl
    · rcases b with - | -
      · simp
      · simp [List.append_assoc]

theorem placeFixedTiles_acc {W H : Int} (specs : List FixedTile) (strat : Strategy)
    (tiles tiles' : List Tile) (occ : Occ) :
    placeFixedTiles W H specs strat (tiles ++ tiles') occ =
      (placeFixedTiles W H specs strat tiles' occ).map (fun q => (tiles ++ q.1, q.2)) := by
  rcases strat with - | - | -
  · exact placeFixedLoop_acc specs tiles tiles' occ
  · exact placeFixedLoop_acc specs tiles tiles' occ
  · exact placeEssentialTiles_acc specs tiles tiles' occ

theorem randomAttempt_acc {W H : Int} {rng : ℕ → ℚ} (tiles tiles' : List Tile) (occ : Occ)
    (n : ℕ) :
    randomAttempt W H rng (tiles ++ tiles', occ, n) =
      (randomAttempt W H rng (tiles', occ, n)).map (fun q => (tiles ++ q.1, q.2)) := by
  simp only [randomAttempt]
  rcases hv : canPlaceTile W H occ (Int.floor (rng (n + 1) * (H : ℚ)))
      (Int.floor (rng (n + 2) * (W : ℚ))) (getRandomTileType (rng n)).width
      (getRandomTileType (rng n)).height with - | b
  · rfl
  · rcases b with - | -
    · simp
    · simp [List.append_assoc]

theorem placeRandomTiles_acc {W H : Int} {rng : ℕ → ℚ} :
    ∀ (fuel : ℕ) (tiles tiles' : List Tile) (occ : Occ) (n : ℕ),
      placeRandomTiles W H rng fuel (tiles ++ tiles', occ, n) =
        (placeRandomTiles W H rng fuel (tiles', occ, n)).map (fun q => (tiles ++ q.1, q.2))
  | 0, tiles, tiles', occ, n => by simp [placeRandomTiles]
  | fuel + 1, tiles, tiles', occ, n => by
    simp only [placeRandomTiles]
    rw [randomAttempt_acc]
    rcases ha : randomAttempt W H rng (tiles', occ, n) with - | ⟨t2, o2, n2⟩
    · rfl
    · simp only [Option.map_some']
      exact placeRandomTiles_acc fuel tiles t2 o2 n2

theorem getRandomTileTypeLoop_mem {q : ℚ} :
    ∀ {acc : ℚ} {l : List TileType} {t : TileType},
      getRandomTileTypeLoop q acc l = some t → t ∈ l
  | acc, [], t, h => by simp [getRandomTileTypeLoop] at h
  | acc, t' :: l, t, h => by
    unfold getRandomTileTypeLoop at h
    split at h
    · rw [Option.some.inj h]
      exact List.mem_cons_self _ _
    · exact List.mem_cons_of_mem _ (getRandomTileTypeLoop_mem h)

theorem getRandomTileType_mem (q : ℚ) : getRandomTileType q ∈ TILE_TYPES := by
  unfold getRandomTileType
  split
  · rename_i t h
    exact getRandomTileTypeLoop_mem h
  · exact List.mem_cons_self _ _

theorem tileType_dims {t : TileType} (ht : t ∈ TILE_TYPES) : 1 ≤ t.width ∧ 1 ≤ t.height := by
  simp only [TILE_TYPES, List.mem_cons, List.not_mem_nil, or_false] at ht
  rcases ht with rfl | rfl | rfl | rfl | rfl | rfl | rfl | rfl <;> exact ⟨by decide, by decide⟩

/-- The shape of any tile pushed by the fixed-tile loop: the output is the
input accumulator followed by, for some subsequence of the specs in their
input order, the spec's placed tile; each placed spec passed
`isValidPlacement` against the occupancy current at its turn. -/
theorem placeFixedLoop_char {W H : Int} {u : Bool} :
    ∀ {fts : List FixedTile} {tiles : List Tile} {occ : Occ} {res : List Tile × Occ},
      placeFixedLoop W H u fts tiles occ = some res →
      ∃ l : List FixedTile, l.Sublist fts ∧
        res.1 = tiles ++ l.map (fun s => placedFixedTile W H s u) ∧
        ∀ s ∈ l, ∃ o : Occ,
          isValidPlacement W H o (getNormalizedTilePosition W H s u).row
            (getNormalizedTilePosition W H s u).col (getNormalizedTilePosition W H s u).width
            (getNormalizedTilePosition W H s u).height = some true
  | [], tiles, occ, res, h => by
    simp only [placeFixedLoop, Option.some.injEq] at h
    refine ⟨[], List.nil_sublist _, ?_, by simp⟩
    rw [← h]
    simp
  | ft :: fts, tiles, occ, res, h => by
    simp only [placeFixedLoop] at h
    rcases hv : isValidPlacement W H occ (getNormalizedTilePosition W H ft u).row
        (getNormalizedTilePosition W H ft u).col (getNormalizedTilePosition W H ft u).width
        (getNormalizedTilePosition W H ft u).height with - | b
    · rw [hv] at h
      simp at h
    · rw [hv] at h
      rcases b with - | -
      · simp only [Bool.false_eq_true, if_false] at h
        obtain ⟨l, hsub, hout, hval⟩ := placeFixedLoop_char h
        exact ⟨l, hsub.cons _, hout, hval⟩
      · simp only [if_true] at h
        obtain ⟨l, hsub, hout, hval⟩ := placeFixedLoop_char h
        refine ⟨ft :: l, hsub.cons₂ _, ?_, ?_⟩
        · rw [hout]
          simp [placedFixedTile, List.append_assoc]
        · intro s hs
          rcases List.mem_cons.mp hs with rfl | hs'
          · exact ⟨occ, hv⟩
          · exact hval s hs'

/-- The fallback phase either places nothing (and then any found essential
tile failed its validity probe), or places exactly the found essential tile at
its normalized primary position. -/
theorem placeEssentialTiles_char {W H : Int} {specs : List FixedTile} {tiles : List Tile}
    {occ : Occ} {res : List Tile × Occ}
    (h : placeEssentialTiles W H specs tiles occ = some res) :
    (res.1 = tiles ∧ res.2 = occ ∧
      ∀ ch, specs.find? (fun t => t.text == some "Charlie Beutter") = some ch →
        isValidPlacement W H occ (getNormalizedTilePosition W H ch false).row
          (getNormalizedTilePosition W H ch false).col
          (getNormalizedTilePosition W H ch false).width
          (getNormalizedTilePosition W H ch false).height = some false) ∨
    (∃ ch, specs.find? (fun t => t.text == some "Charlie Beutter") = some ch ∧
      isValidPlacement W H occ (getNormalizedTilePosition W H ch false).row
        (getNormalizedTilePosition W H ch false).col
        (getNormalizedTilePosition W H ch false).width
        (getNormalizedTilePosition W H ch false).height = some true ∧
      res.1 = tiles ++ [placedFixedTile W H ch false]) := by
  simp only [placeEssentialTiles] at h
  split at h
  · rename_i hf
    simp only [Option.some.injEq, Prod.mk.injEq] at h
    obtain ⟨rfl, rfl⟩ := h
    exact Or.inl ⟨rfl, rfl, fun ch hch => by rw [hf] at hch; cases hch⟩
  · rename_i ch hf
    split at h
    · simp at h
    · rename_i ok hv
      split at h
      · rename_i hok
        subst hok
        simp only [Option.some.injEq, Prod.mk.injEq] at h
        obtain ⟨rfl, rfl⟩ := h
        exact Or.inr ⟨ch, hf, hv, by simp [placedFixedTile]⟩
      · rename_i hok
        simp only [Option.some.injEq, Prod.mk.injEq] at h
        obtain ⟨rfl, rfl⟩ := h
        refine Or.inl ⟨rfl, rfl, fun ch' hch' => ?_⟩
        rw [hf] at hch'
        obtain rfl := Option.some.inj hch'
        rcases hv' : ok with - | -
        · rw [hv'] at hv
          exact hv
        · exact absurd hv' hok

/-- Any successful run of `placeFixedTiles` appends, in input order, the
placed tiles of a subsequence of the specs, each at the position selected by
the strategy (`strategyUsesAlt`). -/
theorem placeFixedTiles_char {W H : Int} {specs : List FixedTile} {strat : Strategy}
    {tiles : List Tile} {occ : Occ} {res : List Tile × Occ}
    (h : placeFixedTiles W H specs strat tiles occ = some res) :
    ∃ l : List FixedTile, l.Sublist specs ∧
      res.1 = tiles ++ l.map (fun s => placedFixedTile W H s (strategyUsesAlt strat)) ∧
      ∀ s ∈ l, ∃ o : Occ,
        isValidPlacement W H o (getNormalizedTilePosition W H s (strategyUsesAlt strat)).row
          (getNormalizedTilePosition W H s (strategyUsesAlt strat)).col
          (getNormalizedTilePosition W H s (strategyUsesAlt strat)).width
          (getNormalizedTilePosition W H s (strategyUsesAlt strat)).height = some true := by
  rcases strat with - | - | -
  · exact placeFixedLoop_char h
  · exact placeFixedLoop_char h
  · rcases placeEssentialTiles_char h with ⟨hout, -, -⟩ | ⟨ch, hf, hv, hout⟩
    · exact ⟨[], List.nil_sublist _, by rw [hout]; simp, by simp⟩
    · refine ⟨[ch], List.singleton_sublist.mpr (List.mem_of_find?_eq_some hf),
        by rw [hout]; simp [strategyUsesAlt], ?_⟩
      intro s hs
      rw [List.mem_singleton] at hs
      subst hs
      exact ⟨occ, hv⟩

/-- The properties every tile placed by the random-attempt phase enjoys. -/
def RandomPlaced (W H : Int) (rng : ℕ → ℚ) (t : Tile) : Prop :=
  t.text = none ∧ t.url = none ∧ t.fontSize = none ∧
  1 ≤ t.width ∧ 1 ≤ t.height ∧ 0 ≤ t.row ∧
  t.row + t.height ≤ H ∧ t.col + t.width ≤ W ∧
  ∃ n : ℕ, t.row = Int.floor (rng (n + 1) * (H : ℚ)) ∧
    t.col = Int.floor (rng (n + 2) * (W : ℚ))

theorem randomAttempt_char {W H : Int} {rng : ℕ → ℚ} {tiles : List Tile} {occ : Occ} {n : ℕ}
    {res : List Tile × Occ × ℕ} (h : randomAttempt W H rng (tiles, occ, n) = some res) :
    res.1 = tiles ∨ ∃ t : Tile, RandomPlaced W H rng t ∧ res.1 = tiles ++ [t] := by
  simp only [randomAttempt] at h
  split at h
  · simp at h
  · rename_i ok hv
    split at h
    · rename_i hok
      subst hok
      simp only [Option.some.injEq] at h
      subst h
      obtain ⟨hw, hh⟩ := tileType_dims (getRandomTileType_mem (rng n))
      refine Or.inr ⟨_, ⟨rfl, rfl, rfl, hw, hh,
        canPlaceTile_true_row_nonneg hw hh hv,
        (canPlaceTile_true_bounds hv).1, (canPlaceTile_true_bounds hv).2,
        n, rfl, rfl⟩, rfl⟩
    · simp only [Option.some.injEq] at h
      subst h
      exact Or.inl rfl

theorem placeRandomTiles_char {W H : Int} {rng : ℕ → ℚ} :
    ∀ {fuel : ℕ} {st : List Tile × Occ × ℕ} {res : List Tile × Occ × ℕ},
      placeRandomTiles W H rng fuel st = some res →
      ∃ new : List Tile, res.1 = st.1 ++ new ∧ ∀ t ∈ new, RandomPlaced W H rng t
  | 0, st, res, h => by
    simp only [placeRandomTiles, Option.some.injEq] at h
    subst h
    exact ⟨[], by simp, by simp⟩
  | fuel + 1, st, res, h => by
    obtain ⟨st1, st2, st3⟩ := st
    simp only [placeRandomTiles] at h
    split at h
    · simp at h
    · rename_i st' ha
      obtain ⟨new', hout', hP'⟩ := placeRandomTiles_char h
      rcases randomAttempt_char ha with heq | ⟨t, hPt, heq⟩
      · exact ⟨new', by rw [hout', heq], hP'⟩
      · refine ⟨t :: new', ?_, ?_⟩
        · rw [hout', heq]
          simp [List.append_assoc]
        · intro s hs
          rcases List.mem_cons.mp hs with rfl | hs'
          · exact hPt
          · exact hP' s hs'

/-- Full characterization of the gap-filling fold: it appends unit tiles, one
per previously-unoccupied cell, in the scan order of the cell list, and marks
exactly those cells. -/
theorem fillFold_char (rng : ℕ → ℚ) :
    ∀ (cells : List (Int × Int)) (tiles : List Tile) (occ : Occ) (n : ℕ),
      ∃ out : List Tile,
        cells.foldl (fillCell rng) (tiles, occ, n) =
          (tiles ++ out, occ ++ out.map (fun t => (t.row, t.col)), n + out.length) ∧
        (out.map (fun t => (t.row, t.col))).Sublist cells ∧
        ∀ t ∈ out, t.width = 1 ∧ t.height = 1 ∧ t.text = none ∧ t.url = none ∧
          t.fontSize = none ∧ (t.row, t.col) ∉ occ
  | [], tiles, occ, n => ⟨[], by simp, by simp, by simp⟩
  | (r, c) :: cells, tiles, occ, n => by
    rw [List.foldl_cons, fillCell_eq]
    by_cases hmem : (r, c) ∈ occ
    · rw [if_pos hmem]
      obtain ⟨out, h1, h2, h3⟩ := fillFold_char rng cells tiles occ n
      exact ⟨out, h1, h2.cons _, h3⟩
    · rw [if_neg hmem]
      obtain ⟨out, h1, h2, h3⟩ := fillFold_char rng cells
        (tiles ++ [{ row := r, col := c, width := 1, height := 1,
                     color := Int.floor (rng n * 8) + 1 }]) (occ ++ [(r, c)]) (n + 1)
      refine ⟨{ row := r, col := c, width := 1, height := 1,
                color := Int.floor (rng n * 8) + 1 } :: out, ?_, ?_, ?_⟩
      · rw [h1]
        simp only [List.cons_append, List.append_assoc, List.singleton_append, List.map_cons,
          List.length_cons, Prod.mk.injEq]
        exact ⟨rfl, rfl, by omega⟩
      · exact h2.cons₂ _
      · intro t ht
        rcases List.mem_cons.mp ht with rfl | ht'
        · exact ⟨rfl, rfl, rfl, rfl, rfl, hmem⟩
        · obtain ⟨e1, e2, e3, e4, e5, e6⟩ := h3 t ht'
          refine ⟨e1, e2, e3, e4, e5, fun hc => e6 (List.mem_append_left _ hc)⟩

end Characterization

section Sampler

/-- The palette paired with its running cumulative weights, starting from a
given accumulator. -/
def cumSums : ℚ → List TileType → List (TileType × ℚ)
  | _, [] => []
  | acc, t :: ts => (t, acc + t.weight) :: cumSums (acc + t.weight) ts

/-- Specification-side sampler, following the spec text: the first palette
entry, in declaration order, whose cumulative weight strictly exceeds the
draw (`none` when the palette is exhausted without a match).  Used to compare
`getRandomTileType` against the spec. -/
def specFirstExceeding (rand : ℚ) : Option TileType :=
  ((cumSums 0 TILE_TYPES).find? (fun p => decide (rand < p.2))).map Prod.fst

theorem getRandomTileTypeLoop_eq_find (q : ℚ) :
    ∀ (l : List TileType) (acc : ℚ),
      getRandomTileTypeLoop q acc l =
        ((cumSums acc l).find? (fun p => decide (q < p.2))).map Prod.fst
  | [], acc => rfl
  | t :: l, acc => by
    unfold getRandomTileTypeLoop cumSums
    by_cases hq : q < acc + t.weight
    · rw [if_pos hq, List.find?_cons_of_pos _ (by simpa using hq)]
      rfl
    · rw [if_neg hq, List.find?_cons_of_neg _ (by simpa using hq)]
      exact getRandomTileTypeLoop_eq_find q l (acc + t.weight)

/-- `getRandomTileType` refines the spec-side sampler, with the first palette
entry as the exhaustion fallback. -/
theorem getRandomTileType_eq_spec (q : ℚ) :
    getRandomTileType q = (specFirstExceeding q).getD TILE_TYPES.headI := by
  unfold getRandomTileType specFirstExceeding
  rw [getRandomTileTypeLoop_eq_find]
  cases ((cumSums 0 TILE_TYPES).find? fun p => decide (q < p.2)).map Prod.fst <;> rfl

theorem getRandomTileTypeLoop_none_le (q : ℚ) :
    ∀ (l : List TileType) (acc : ℚ), l ≠ [] →
      getRandomTileTypeLoop q acc l = none →
      acc + (l.map TileType.weight).sum ≤ q
  | [], acc, hne, h => absurd rfl hne
  | t :: l, acc, hne, h => by
    unfold getRandomTileTypeLoop at h
    split at h
    · cases h
    · rename_i hq
      rcases l with - | ⟨t', l'⟩
      · simp only [List.map_cons, List.map_nil, List.sum_cons, List.sum_nil, add_zero]
        linarith [not_lt.mp hq]
      · have := getRandomTileTypeLoop_none_le q (t' :: l') (acc + t.weight) (by simp) h
        simp only [List.map_cons, List.sum_cons] at this ⊢
        linarith

/-- Exhaustion can only happen for draws at or above the total weight `1`. -/
theorem specFirstExceeding_none {q : ℚ} (h : specFirstExceeding q = none) : (1 : ℚ) ≤ q := by
  unfold specFirstExceeding at h
  rw [Option.map_eq_none'] at h
  have hloop : getRandomTileTypeLoop q 0 TILE_TYPES = none := by
    rw [getRandomTileTypeLoop_eq_find, h]
    rfl
  have := getRandomTileTypeLoop_none_le q TILE_TYPES 0 (by simp [TILE_TYPES]) hloop
  have hsum : (TILE_TYPES.map TileType.weight).sum = 1 := by
    simp only [TILE_TYPES, List.map_cons, List.map_nil, List.sum_cons, List.sum_nil]
    norm_num
  rw [hsum] at this
  linarith

end Sampler

section CellCount

/-- The cells of a tile, as a finite set. -/
def tileCells (t : Tile) : Finset (Int × Int) :=
  (intRange t.row (t.row + t.height)).toFinset ×ˢ (intRange t.col (t.col + t.width)).toFinset

theorem intRange_nodup (lo hi : Int) : (intRange lo hi).Nodup := by
  unfold intRange
  refine List.Nodup.map ?_ (List.nodup_range _)
  intro a b hab
  dsimp only at hab
  omega

theorem mem_tileCells {t : Tile} {p : Int × Int} :
    p ∈ tileCells t ↔ coversCell t p.1 p.2 := by
  obtain ⟨x, y⟩ := p
  simp only [tileCells, Finset.mem_product, List.mem_toFinset, mem_intRange, coversCell]
  omega

theorem card_tileCells (t : Tile) : (tileCells t).card = t.width.toNat * t.height.toNat := by
  unfold tileCells
  rw [Finset.card_product, List.toFinset_card_of_nodup (intRange_nodup _ _),
    List.toFinset_card_of_nodup (intRange_nodup _ _)]
  unfold intRange
  simp only [List.length_map, List.length_range]
  have h1 : t.row + t.height - t.row = t.height := by omega
  have h2 : t.col + t.width - t.col = t.width := by omega
  rw [h1, h2, Nat.mul_comm]

/-- The union of the cell sets of a list of tiles. -/
def tilesUnion : List Tile → Finset (Int × Int)
  | [] => ∅
  | t :: ts => tileCells t ∪ tilesUnion ts

theorem mem_tilesUnion {p : Int × Int} :
    ∀ {ts : List Tile}, p ∈ tilesUnion ts ↔ ∃ t ∈ ts, p ∈ tileCells t
  | [] => by simp [tilesUnion]
  | t :: ts => by
    simp only [tilesUnion, Finset.mem_union, @mem_tilesUnion p ts, List.mem_cons]
    constructor
    · rintro (hp | ⟨t', ht', hp⟩)
      · exact ⟨t, Or.inl rfl, hp⟩
      · exact ⟨t', Or.inr ht', hp⟩
    · rintro ⟨t', rfl | ht', hp⟩
      · exact Or.inl hp
      · exact Or.inr ⟨t', ht', hp⟩

theorem card_tilesUnion :
    ∀ {ts : List Tile}, ts.Pairwise tilesDisjoint →
      (tilesUnion ts).card = (ts.map fun t => (tileCells t).card).sum
  | [], _ => by simp [tilesUnion]
  | t :: ts, h => by
    rw [List.pairwise_cons] at h
    have hdisj : Disjoint (tileCells t) (tilesUnion ts) := by
      rw [Finset.disjoint_left]
      intro p hp hp'
      obtain ⟨t', ht', hpt'⟩ := mem_tilesUnion.mp hp'
      exact h.1 t' ht' p.1 p.2 (mem_tileCells.mp hp) (mem_tileCells.mp hpt')
    show (tileCells t ∪ tilesUnion ts).card = _
    rw [Finset.card_union_of_disjoint hdisj, card_tilesUnion h.2]
    simp

/-- The grid `[0,H) × [0,W)` as a finite cell set. -/
def gridCellsFinset (W H : Int) : Finset (Int × Int) :=
  (intRange 0 H).toFinset ×ˢ (intRange 0 W).toFinset

theorem card_gridCellsFinset (W H : Int) :
    (gridCellsFinset W H).card = W.toNat * H.toNat := by
  unfold gridCellsFinset
  rw [Finset.card_product, List.toFinset_card_of_nodup (intRange_nodup _ _),
    List.toFinset_card_of_nodup (intRange_nodup _ _)]
  unfold intRange
  simp only [List.length_map, List.length_range]
  have h1 : H - 0 = H := by omega
  have h2 : W - 0 = W := by omega
  rw [h1, h2, Nat.mul_comm]

end CellCount

section ZeroRngRuns

theorem validRng_zeroRng : ValidRng zeroRng :=
  fun n => ⟨le_refl 0, by norm_num [zeroRng]⟩

theorem getRandomTileType_zero : getRandomTileType 0 = ⟨1, 1, 3/10⟩ := by
  norm_num [getRandomTileType, getRandomTileTypeLoop, TILE_TYPES]

theorem randomAttempt_zeroRng (W H : Int) (tiles : List Tile) (occ : Occ) (n : ℕ) :
    randomAttempt W H zeroRng (tiles, occ, n) =
      match canPlaceTile W H occ 0 0 1 1 with
      | none => none
      | some true =>
        some (tiles ++ [{ row := 0, col := 0, width := 1, height := 1, color := 1 }],
              placeTile occ 0 0 1 1, n + 4)
      | some false => some (tiles, occ, n + 3) := by
  simp only [randomAttempt, zeroRng, getRandomTileType_zero, zero_mul, Int.floor_zero,
    zero_add]
  rcases hcp : canPlaceTile W H occ 0 0 1 1 with - | b
  · rfl
  · rcases b with - | - <;> rfl

theorem placeRandomTiles_stationary {W H : Int} {rng : ℕ → ℚ} {tiles : List Tile} {occ : Occ}
    (hstep : ∀ n : ℕ, randomAttempt W H rng (tiles, occ, n) = some (tiles, occ, n + 3)) :
    ∀ (fuel n : ℕ),
      placeRandomTiles W H rng fuel (tiles, occ, n) = some (tiles, occ, n + 3 * fuel)
  | 0, n => by simp [placeRandomTiles]
  | fuel + 1, n => by
    simp only [placeRandomTiles, hstep n]
    rw [placeRandomTiles_stationary hstep fuel (n + 3)]
    have : n + 3 + 3 * fuel = n + 3 * (fuel + 1) := by omega
    rw [this]

/-- A full random phase under the all-zeros RNG: if the unit cell `(0,0)` is
free it is taken by the first attempt; every later attempt retries the same
cell and fails. -/
theorem placeRandomTiles_zeroRng_free {W H : Int} (tiles : List Tile) (occ : Occ) (n : ℕ)
    (hfree : canPlaceTile W H occ 0 0 1 1 = some true)
    (hbusy : canPlaceTile W H (placeTile occ 0 0 1 1) 0 0 1 1 = some false) :
    placeRandomTiles W H zeroRng MAX_PLACEMENT_ATTEMPTS (tiles, occ, n) =
      some (tiles ++ [{ row := 0, col := 0, width := 1, height := 1, color := 1 }],
            placeTile occ 0 0 1 1, n + 4 + 3 * 999) := by
  have h1000 : MAX_PLACEMENT_ATTEMPTS = 999 + 1 := rfl
  have hsucc : ∀ (fuel : ℕ) (st : List Tile × Occ × ℕ),
      placeRandomTiles W H zeroRng (fuel + 1) st =
        match randomAttempt W H zeroRng st with
        | none => none
        | some st' => placeRandomTiles W H zeroRng fuel st' := fun _ _ => rfl
  rw [h1000, hsucc]
  simp only [randomAttempt_zeroRng, hfree]
  exact placeRandomTiles_stationary
    (fun m => by simp only [randomAttempt_zeroRng, hbusy]) 999 (n + 4)

/-- Reassembling `generatePattern` from evaluated phases. -/
theorem generatePattern_build {W H : Int} {specs : List FixedTile} {rng : ℕ → ℚ}
    (strat : Strategy) {tiles1 : List Tile} {occ1 : Occ} {tiles2 : List Tile} {occ2 : Occ}
    {n2 : ℕ}
    (h1 : determinePlacementStrategy W H resetGrid specs = some strat)
    (h2 : placeFixedTiles W H specs strat [] resetGrid = some (tiles1, occ1))
    (h3 : placeRandomTiles W H rng MAX_PLACEMENT_ATTEMPTS (tiles1, occ1, 0) =
      some (tiles2, occ2, n2)) :
    generatePattern W H specs rng = some (fillEmptyCells W H rng tiles2 occ2 n2).1 := by
  unfold generatePattern
  simp only [h1, h2, h3]

theorem fillCell_zeroRng (tiles : List Tile) (occ : Occ) (n : ℕ) (r c : Int) :
    fillCell zeroRng (tiles, occ, n) (r, c) =
      if (r, c) ∈ occ then (tiles, occ, n)
      else (tiles ++ [{ row := r, col := c, width := 1, height := 1, color := 1 }],
            occ ++ [(r, c)], n + 1) := by
  rw [fillCell_eq]
  simp only [zeroRng, zero_mul, Int.floor_zero, zero_add]

end ZeroRngRuns

theorem everyCheck_all_true {f : FixedTile → Option Bool} :
    ∀ {l : List FixedTile}, (∀ s ∈ l, f s = some true) → everyCheck f l = some true
  | [], _ => rfl
  | s :: l, h => by
    have hs := h s (List.mem_cons_self _ _)
    simp only [everyCheck, hs, if_true]
    exact everyCheck_all_true fun s' hs' => h s' (List.mem_cons_of_mem _ hs')

theorem determine_primary_of_all {W H : Int} {occ : Occ} {specs : List FixedTile}
    (h : everyCheck (checkPrimary W H occ) specs = some true) :
    determinePlacementStrategy W H occ specs = some Strategy.primary := by
  simp only [determinePlacementStrategy, h, if_true]

theorem getNormalizedTilePosition_dims {W H : Int} {s : FixedTile} (u : Bool)
    (hw : 1 ≤ s.width) (hh : 1 ≤ s.height)
    (haw : ∀ w ∈ s.altWidth, 1 ≤ w) (hah : ∀ x ∈ s.altHeight, 1 ≤ x) :
    1 ≤ (getNormalizedTilePosition W H s u).width ∧
      1 ≤ (getNormalizedTilePosition W H s u).height := by
  unfold getNormalizedTilePosition
  split
  · constructor
    · show 1 ≤ s.altWidth.getD s.width
      rcases hx : s.altWidth with - | w
      · simpa using hw
      · simpa using haw w hx
    · show 1 ≤ s.altHeight.getD s.height
      rcases hx : s.altHeight with - | x
      · simpa using hh
      · simpa using hah x hx
  · exact ⟨hw, hh⟩

section ConcreteRuns

/-- A fixed spec whose column normalizes to `-1` on a `2 × 2` grid: the source
places it protruding past the left edge. -/
def specNeg : FixedTile :=
  { row := 0, col := -2, width := 1, height := 1, color := 9 }

/-- The essential tile, too wide to fit a `2 × 2` grid. -/
def charlieSpec : FixedTile :=
  { row := 1, col := 1, width := 4, height := 1, color := 9,
    text := some "Charlie Beutter" }

/-- A fixed tile too wide for a `3 × 3` grid (its primary check fails cleanly). -/
def blockerSpec : FixedTile :=
  { row := 0, col := 0, width := 3, height := 1, color := 1 }

/-- An essential tile whose primary row normalizes to a negative index on a
`3 × 3` grid, making the occupancy probe fault. -/
def charlieCrashSpec : FixedTile :=
  { row := -5, col := 0, width := 1, height := 1, color := 9,
    text := some "Charlie Beutter" }

/-- Fixed tile with primary `(1,1)`–`(1,2)` and alternate `(0,0)`–`(0,1)`. -/
def specA : FixedTile :=
  { row := 1, col := 1, width := 2, height := 1, color := 10, text := some "About",
    altRow := some 0, altCol := some 0 }

/-- Fixed tile with primary `(1,2)`–`(1,3)` (overlapping `specA`) and alternate
`(0,2)`–`(0,3)`. -/
def specB : FixedTile :=
  { row := 1, col := 2, width := 2, height := 1, color := 10, text := some "Projects",
    altRow := some 0, altCol := some 2 }

/-- The gap-filler tiles of the evaluated `2 × 2` runs. -/
def fillTilesA : List Tile :=
  [{ row := 0, col := 1, width := 1, height := 1, color := 1 },
   { row := 1, col := 0, width := 1, height := 1, color := 1 },
   { row := 1, col := 1, width := 1, height := 1, color := 1 }]

/-- Output of the evaluated run on an empty `2 × 2` grid (also of the
fallback run whose essential tile does not fit). -/
def runATiles : List Tile :=
  { row := 0, col := 0, width := 1, height := 1, color := 1 } :: fillTilesA

/-- Output of the evaluated run with the protruding spec `specNeg`. -/
def runBTiles : List Tile :=
  { row := 0, col := -1, width := 1, height := 1, color := 9 } ::
    { row := 0, col := 0, width := 1, height := 1, color := 1 } :: fillTilesA

theorem fill_occA (tiles : List Tile) (n : ℕ) :
    (fillEmptyCells 2 2 zeroRng tiles [(0, 0)] n).1 =
      tiles ++ [{ row := 0, col := 1, width := 1, height := 1, color := 1 },
                { row := 1, col := 0, width := 1, height := 1, color := 1 },
                { row := 1, col := 1, width := 1, height := 1, color := 1 }] := by
  have hcells : gridCellsRowMajor 2 2 = [(0, 0), (0, 1), (1, 0), (1, 1)] := by decide
  unfold fillEmptyCells
  rw [hcells, List.foldl_cons, fillCell_zeroRng, if_pos (by decide),
    List.foldl_cons, fillCell_zeroRng, if_neg (by decide),
    List.foldl_cons, fillCell_zeroRng, if_neg (by decide),
    List.foldl_cons, fillCell_zeroRng, if_neg (by decide), List.foldl_nil]
  simp

theorem fill_occB (tiles : List Tile) (n : ℕ) :
    (fillEmptyCells 2 2 zeroRng tiles [(0, -1), (0, 0)] n).1 =
      tiles ++ [{ row := 0, col := 1, width := 1, height := 1, color := 1 },
                { row := 1, col := 0, width := 1, height := 1, color := 1 },
                { row := 1, col := 1, width := 1, height := 1, color := 1 }] := by
  have hcells : gridCellsRowMajor 2 2 = [(0, 0), (0, 1), (1, 0), (1, 1)] := by decide
  unfold fillEmptyCells
  rw [hcells, List.foldl_cons, fillCell_zeroRng, if_pos (by decide),
    List.foldl_cons, fillCell_zeroRng, if_neg (by decide),
    List.foldl_cons, fillCell_zeroRng, if_neg (by decide),
    List.foldl_cons, fillCell_zeroRng, if_neg (by decide), List.foldl_nil]
  simp

/-- A fully evaluated run: `2 × 2` grid, no fixed specs, all-zeros RNG. -/
theorem generatePattern_runA :
    generatePattern 2 2 [] zeroRng = some runATiles := by
  have h3 := placeRandomTiles_zeroRng_free (W := 2) (H := 2) [] [] 0 (by decide) (by decide)
  rw [generatePattern_build Strategy.primary (by decide) (by decide) h3]
  have hocc : placeTile ([] : Occ) 0 0 1 1 = [(0, 0)] := by decide
  rw [hocc, fill_occA]
  simp [runATiles, fillTilesA]

/-- A fully evaluated run: `2 × 2` grid, the protruding spec, all-zeros RNG.
The fixed tile lands at column `-1`. -/
theorem generatePattern_runB :
    generatePattern 2 2 [specNeg] zeroRng = some runBTiles := by
  have h3 := placeRandomTiles_zeroRng_free (W := 2) (H := 2)
    [{ row := 0, col := -1, width := 1, height := 1, color := 9 }] [(0, -1)] 0
    (by decide) (by decide)
  rw [generatePattern_build Strategy.primary (by decide) (by decide) h3]
  have hocc : placeTile [(0, -1)] 0 0 1 1 = [(0, -1), (0, 0)] := by decide
  rw [hocc, fill_occB]
  simp [runBTiles, fillTilesA]

/-- A fully evaluated run: `2 × 2` grid, only the oversized essential spec,
all-zeros RNG.  Strategy is fallback and the essential tile does not fit, so
no fixed tile appears. -/
theorem generatePattern_runC :
    generatePattern 2 2 [charlieSpec] zeroRng = some runATiles := by
  have h3 := placeRandomTiles_zeroRng_free (W := 2) (H := 2) [] [] 0 (by decide) (by decide)
  rw [generatePattern_build Strategy.fallback (by decide) (by decide) h3]
  have hocc : placeTile ([] : Occ) 0 0 1 1 = [(0, 0)] := by decide
  rw [hocc, fill_occA]
  simp [runATiles, fillTilesA]

end ConcreteRuns

section Segments

/-- The master decomposition of a completed generation pass into its three
phases, with the structural properties of each segment. -/
theorem generatePattern_segments {W H : Int} {specs : List FixedTile} {rng : ℕ → ℚ}
    {ts : List Tile} (h : generatePattern W H specs rng = some ts) :
    ∃ (strat : Strategy) (fx : List Tile) (occ1 : Occ) (rd : List Tile) (occ2 : Occ) (n2 : ℕ)
      (fl : List Tile) (l : List FixedTile),
      determinePlacementStrategy W H resetGrid specs = some strat ∧
      placeFixedTiles W H specs strat [] resetGrid = some (fx, occ1) ∧
      placeRandomTiles W H rng MAX_PLACEMENT_ATTEMPTS ([], occ1, 0) = some (rd, occ2, n2) ∧
      ts = fx ++ rd ++ fl ∧
      l.Sublist specs ∧
      fx = l.map (fun s => placedFixedTile W H s (strategyUsesAlt strat)) ∧
      (∀ s ∈ l, ∃ o : Occ,
        isValidPlacement W H o (getNormalizedTilePosition W H s (strategyUsesAlt strat)).row
          (getNormalizedTilePosition W H s (strategyUsesAlt strat)).col
          (getNormalizedTilePosition W H s (strategyUsesAlt strat)).width
          (getNormalizedTilePosition W H s (strategyUsesAlt strat)).height = some true) ∧
      (∀ t ∈ rd, RandomPlaced W H rng t) ∧
      (fl.map (fun t => (t.row, t.col))).Sublist (gridCellsRowMajor W H) ∧
      (∀ t ∈ fl, t.width = 1 ∧ t.height = 1 ∧ t.text = none ∧ t.url = none ∧
        t.fontSize = none ∧ (t.row, t.col) ∉ occ2) ∧
      (∀ p ∈ gridCellsRowMajor W H, p ∉ occ2 → p ∈ fl.map fun t => (t.row, t.col)) := by
  obtain ⟨strat, tiles1, occ1, tiles2, occ2, n2, h1, h2, h3, hts⟩ := generatePattern_parts h
  have hacc := @placeRandomTiles_acc W H rng MAX_PLACEMENT_ATTEMPTS tiles1 [] occ1 0
  rw [List.append_nil] at hacc
  rw [hacc] at h3
  rcases hr : placeRandomTiles W H rng MAX_PLACEMENT_ATTEMPTS ([], occ1, 0) with - | ⟨rd, o2, m2⟩
  · rw [hr] at h3
    simp at h3
  · rw [hr, Option.map_some'] at h3
    obtain ⟨he1, he2, he3⟩ : tiles1 ++ rd = tiles2 ∧ occ2 = o2 ∧ n2 = m2 := by
      have := Option.some.inj h3
      exact ⟨congrArg Prod.fst this, (congrArg (fun q => q.2.1) this).symm,
        (congrArg (fun q => q.2.2) this).symm⟩
    subst he2
    subst he3
    obtain ⟨l, hsubl, hfx, hval⟩ := placeFixedTiles_char h2
    rw [List.nil_append] at hfx
    obtain ⟨new, hnew, hPnew⟩ := placeRandomTiles_char hr
    rw [List.nil_append] at hnew
    subst hnew
    obtain ⟨out, heq, hsub, hprops⟩ :=
      fillFold_char rng (gridCellsRowMajor W H) tiles2 occ2 n2
    have htseq : ts = tiles2 ++ out := by
      rw [hts]
      unfold fillEmptyCells
      rw [heq]
    refine ⟨strat, tiles1, occ1, rd, occ2, n2, out, l, h1, h2, hr, ?_, hsubl, hfx, hval,
      hPnew, hsub, hprops, ?_⟩
    · rw [htseq, ← he1, List.append_assoc]
    · intro p hp hpocc
      have hmem := @fillFold_covers rng _ (tiles2, occ2, n2) _ hp
      rw [heq] at hmem
      rcases List.mem_append.mp hmem with hc | hc
      · exact absurd hc hpocc
      · exact hc

end Segments

section Claims

/-- C4 (amended): for `row ≥ 0`, `col ≥ 0`, `width ≥ 1` and `height ≥ 1`,
`canPlaceTile` is total (never throws) and side-effect free, and returns
`true` iff the rectangle `[row,row+height) × [col,col+width)` lies entirely
within the grid bounds `[0,gridHeight) × [0,gridWidth)` and every cell in it
is currently unoccupied.  (As stated over all inputs the claim fails: a
negative `row` makes the scan throw on the missing grid row, and a negative
`col` can return `true` for a rectangle protruding past the left edge — see
the counterexample.) -/
theorem claim4_canPlaceTile_total_iff {W H : Int} {occ : Occ} {row col width height : Int}
    (hrow : 0 ≤ row) (hcol : 0 ≤ col) (hw : 1 ≤ width) (hh : 1 ≤ height) :
    (canPlaceTile W H occ row col width height).isSome ∧
    (canPlaceTile W H occ row col width height = some true ↔
      (∀ r c, row ≤ r → r < row + height → col ≤ c → c < col + width →
        (0 ≤ r ∧ r < H) ∧ (0 ≤ c ∧ c < W)) ∧
      (∀ r c, row ≤ r → r < row + height → col ≤ c → c < col + width →
        (r, c) ∉ occ)) := by
  unfold canPlaceTile
  by_cases hb : H < row + height ∨ W < col + width
  · rw [if_pos hb]
    refine ⟨by simp, ?_⟩
    constructor
    · intro hcontra
      exact absurd hcontra (by simp)
    · rintro ⟨hin, -⟩
      exfalso
      rcases hb with hb | hb
      · have := hin (row + height - 1) col (by omega) (by omega) (le_refl _) (by omega)
        omega
      · have := hin row (col + width - 1) (le_refl _) (by omega) (by omega) (by omega)
        omega
  · rw [if_neg hb]
    push_neg at hb
    constructor
    · apply canPlaceRows_isSome
      intro r hr
      apply rowCheck_ne_none
      right
      have := mem_intRange.mp hr
      omega
    · rw [canPlaceRows_eq_some_true]
      constructor
      · intro hall
        constructor
        · intro r c h1 h2 h3 h4
          exact ⟨⟨by omega, by omega⟩, by omega, by omega⟩
        · intro r c h1 h2 h3 h4
          have hr := hall r (mem_intRange.mpr ⟨h1, h2⟩)
          rcases rowCheck_eq_some_true.mp hr with hcontra | ⟨-, hfree⟩
          · omega
          · exact hfree c h3 h4
      · rintro ⟨-, hfree⟩
        intro r hr
        rw [rowCheck_eq_some_true]
        have hrr := mem_intRange.mp hr
        exact Or.inr ⟨⟨by omega, by omega⟩, fun c hc1 hc2 => hfree r c hrr.1 hrr.2 hc1 hc2⟩

/-- C4 counterexample: at a negative `row` the probe throws (`none`, so it is
not total), and at a negative `col` it answers `true` although the rectangle
does not lie within `[0,3) × [0,3)`. -/
theorem claim4_counterexample :
    canPlaceTile 3 3 [] (-1) 0 1 1 = none ∧
    (canPlaceTile 3 3 [] 0 (-1) 1 1 = some true ∧ ¬(0 ≤ (-1 : Int))) := by
  refine ⟨by decide, by decide, by decide⟩

/-- C4 witness: the characterization applied at the concrete input
`canPlaceTile 3 3 [] 1 1 1 1`. -/
theorem claim4_witness :
    (0 ≤ (1 : Int)) ∧ (1 ≤ (1 : Int)) ∧
    ((canPlaceTile 3 3 [] 1 1 1 1).isSome ∧
      (canPlaceTile 3 3 [] 1 1 1 1 = some true ↔
        (∀ r c : Int, 1 ≤ r → r < 1 + 1 → 1 ≤ c → c < 1 + 1 →
          (0 ≤ r ∧ r < 3) ∧ (0 ≤ c ∧ c < 3)) ∧
        (∀ r c : Int, 1 ≤ r → r < 1 + 1 → 1 ≤ c → c < 1 + 1 → (r, c) ∉ ([] : Occ)))) :=
  ⟨by decide, by decide,
    claim4_canPlaceTile_total_iff (by decide) (by decide) (by decide) (by decide)⟩

/-- C6: for every draw in `[0,1)` the sampler returns exactly the first
palette entry whose cumulative weight strictly exceeds the draw, and on
exhaustion (no entry matching) it deterministically returns the first palette
entry. -/
theorem claim6_weighted_sampler :
    (∀ q : ℚ, 0 ≤ q → q < 1 →
      ∃ t : TileType, specFirstExceeding q = some t ∧ getRandomTileType q = t) ∧
    (∀ q : ℚ, specFirstExceeding q = none → getRandomTileType q = TILE_TYPES.headI) := by
  constructor
  · intro q h0 h1
    rcases hfe : specFirstExceeding q with - | t
    · exact absurd (specFirstExceeding_none hfe) (by linarith)
    · refine ⟨t, rfl, ?_⟩
      rw [getRandomTileType_eq_spec, hfe]
      rfl
  · intro q hfe
    rw [getRandomTileType_eq_spec, hfe]
    rfl

/-- C6 witness: the sampler at the concrete draw `1/2` (third palette entry,
cumulative weight `0.7 > 0.5`). -/
theorem claim6_witness :
    (0 ≤ (1/2 : ℚ)) ∧ ((1/2 : ℚ) < 1) ∧
    ∃ t : TileType, specFirstExceeding (1/2) = some t ∧ getRandomTileType (1/2) = t :=
  ⟨by norm_num, by norm_num, claim6_weighted_sampler.1 (1/2) (by norm_num) (by norm_num)⟩

theorem getRandomTileTypeLoop_one : getRandomTileTypeLoop 1 0 TILE_TYPES = none := by
  norm_num [getRandomTileTypeLoop, TILE_TYPES]

theorem specFirstExceeding_one : specFirstExceeding 1 = none := by
  unfold specFirstExceeding
  rw [← getRandomTileTypeLoop_eq_find]
  exact getRandomTileTypeLoop_one

/-- C7 (amended): on exhaustion the sampler returns the FIRST palette entry
(`TILE_TYPES[0] = 1×1`), not the last one as the claim states. -/
theorem claim7_exhaustion_returns_first (q : ℚ) (h : specFirstExceeding q = none) :
    getRandomTileType q = TILE_TYPES.headI ∧ TILE_TYPES.headI = ⟨1, 1, 3/10⟩ := by
  refine ⟨?_, rfl⟩
  rw [getRandomTileType_eq_spec, h]
  rfl

/-- C7 counterexample: the draw `1` exhausts the palette, yet the sampler
returns the first entry (`1×1`), which differs from the last entry (`3×2`). -/
theorem claim7_counterexample :
    specFirstExceeding 1 = none ∧
    TILE_TYPES.getLast? = some ⟨3, 2, 1/50⟩ ∧
    getRandomTileType 1 = ⟨1, 1, 3/10⟩ ∧
    (⟨1, 1, 3/10⟩ : TileType).width ≠ (⟨3, 2, 1/50⟩ : TileType).width := by
  refine ⟨specFirstExceeding_one, rfl, ?_, by decide⟩
  rw [getRandomTileType_eq_spec, specFirstExceeding_one]
  rfl

/-- C7 witness: the amended fallback behavior at the concrete exhausting
draw `1`. -/
theorem claim7_witness :
    specFirstExceeding 1 = none ∧
    (getRandomTileType 1 = TILE_TYPES.headI ∧ TILE_TYPES.headI = ⟨1, 1, 3/10⟩) :=
  ⟨specFirstExceeding_one, claim7_exhaustion_returns_first 1 specFirstExceeding_one⟩

/-- C9 (amended): the constructor performs no dimension validation.  Zero
width or height is accepted (an empty grid is allocated), and only negative
dimensions happen to throw, via `Array(n)`: a negative height always, a
negative width only when at least one row exists. -/
theorem claim9_constructor_no_validation :
    (constructGenerator 0 0).isSome ∧ (constructGenerator 0 5).isSome ∧
    (constructGenerator 5 0).isSome ∧
    ∀ W H : Int, constructGenerator W H = none ↔ (H < 0 ∨ (1 ≤ H ∧ W < 0)) := by
  refine ⟨by decide, by decide, by decide, fun W H => ?_⟩
  unfold constructGenerator
  split_ifs with h1 h2
  · exact iff_of_true rfl (Or.inl h1)
  · exact iff_of_true rfl (Or.inr h2)
  · exact iff_of_false (by simp) (by omega)

/-- C9 counterexample: a generator with `gridWidth = 0 ≤ 0` is NOT rejected
at construction; the constructor succeeds and yields the empty occupancy. -/
theorem claim9_counterexample :
    ((0 : Int) ≤ 0) ∧ constructGenerator 0 5 = some resetGrid :=
  ⟨le_refl 0, by decide⟩

theorem tilesUnion_eq_grid {W H : Int} {ts : List Tile}
    (hcover : ∀ r c : Int, 0 ≤ r → r < H → 0 ≤ c → c < W → ∃ t ∈ ts, coversCell t r c)
    (hwithin : ∀ t ∈ ts, ∀ r c : Int, coversCell t r c →
      (0 ≤ r ∧ r < H) ∧ (0 ≤ c ∧ c < W)) :
    tilesUnion ts = gridCellsFinset W H := by
  ext p
  rw [mem_tilesUnion]
  simp only [gridCellsFinset, Finset.mem_product, List.mem_toFinset, mem_intRange]
  constructor
  · rintro ⟨t, ht, hp⟩
    have := hwithin t ht p.1 p.2 (mem_tileCells.mp hp)
    exact ⟨⟨by omega, by omega⟩, by omega, by omega⟩
  · rintro ⟨⟨h1, h2⟩, h3, h4⟩
    obtain ⟨t, ht, hc⟩ := hcover p.1 p.2 (by omega) h2 (by omega) h4
    exact ⟨t, ht, mem_tileCells.mpr hc⟩

/-- C1 (amended): any completed generation pass covers every in-grid cell with
exactly one returned tile — every cell is covered, and the returned tiles'
rectangles are pairwise non-intersecting.  The cell counts sum to
`width * height` PROVIDED every returned tile's rectangle lies inside the
grid; a fixed spec whose column normalizes to a negative index produces a
tile protruding past the left edge, and then the sum exceeds
`width * height` (see the counterexample). -/
theorem claim1_exact_cover {W H : Int} {specs : List FixedTile} {rng : ℕ → ℚ}
    {ts : List Tile} (hW : 1 ≤ W) (hH : 1 ≤ H)
    (h : generatePattern W H specs rng = some ts) :
    (∀ r c : Int, 0 ≤ r → r < H → 0 ≤ c → c < W → ∃ t ∈ ts, coversCell t r c) ∧
    ts.Pairwise tilesDisjoint ∧
    ((∀ t ∈ ts, ∀ r c : Int, coversCell t r c → (0 ≤ r ∧ r < H) ∧ (0 ≤ c ∧ c < W)) →
      (ts.map fun t => t.width.toNat * t.height.toNat).sum = W.toNat * H.toNat) := by
  obtain ⟨occF, inv, hfull⟩ := generatePattern_inv h
  have hcover : ∀ r c : Int, 0 ≤ r → r < H → 0 ≤ c → c < W → ∃ t ∈ ts, coversCell t r c :=
    fun r c h1 h2 h3 h4 => (inv.1 r c).mp (hfull r c h1 h2 h3 h4)
  refine ⟨hcover, inv.2, fun hwithin => ?_⟩
  have hmap : ts.map (fun t => t.width.toNat * t.height.toNat) =
      ts.map fun t => (tileCells t).card :=
    List.map_congr_left fun t ht => (card_tileCells t).symm
  rw [hmap, ← card_tilesUnion inv.2, tilesUnion_eq_grid hcover hwithin,
    card_gridCellsFinset]

/-- C1 counterexample: on a `2 × 2` grid with the fixed spec at column `-2`
(normalizing to `-1`), generation completes but the placed tiles cover `5`
cells, not `width * height = 4`. -/
theorem claim1_counterexample :
    ∃ ts : List Tile, generatePattern 2 2 [specNeg] zeroRng = some ts ∧
      (ts.map fun t => t.width.toNat * t.height.toNat).sum ≠
        (2 : Int).toNat * (2 : Int).toNat :=
  ⟨runBTiles, generatePattern_runB, by decide⟩

/-- C1 witness: the exact-cover theorem at the evaluated `2 × 2` run with no
fixed specs. -/
theorem claim1_witness :
    ((1 : Int) ≤ 2) ∧ generatePattern 2 2 [] zeroRng = some runATiles ∧
    ((∀ r c : Int, 0 ≤ r → r < 2 → 0 ≤ c → c < 2 → ∃ t ∈ runATiles, coversCell t r c) ∧
     runATiles.Pairwise tilesDisjoint ∧
     ((∀ t ∈ runATiles, ∀ r c : Int, coversCell t r c →
        (0 ≤ r ∧ r < 2) ∧ (0 ≤ c ∧ c < 2)) →
       (runATiles.map fun t => t.width.toNat * t.height.toNat).sum =
         (2 : Int).toNat * (2 : Int).toNat)) :=
  ⟨by decide, generatePattern_runA,
    claim1_exact_cover (by decide) (by decide) generatePattern_runA⟩

/-- C2 (amended): for grids with `width, height ≥ 1`, fixed specs whose
(primary and alternate) dimensions are at least `1`, and any RNG, every tile
returned by `generatePattern` satisfies `row ≥ 0`, `row + height ≤ gridHeight`
and `col + width ≤ gridWidth`.  The remaining bound `col ≥ 0` holds whenever
the RNG draws lie in `[0,1)` and every spec's normalized column (primary and
alternate) is nonnegative; it fails for a spec normalizing to a negative
column (see the counterexample). -/
theorem claim2_bounds {W H : Int} {specs : List FixedTile} {rng : ℕ → ℚ} {ts : List Tile}
    (hW : 1 ≤ W) (hH : 1 ≤ H)
    (hdims : ∀ s ∈ specs, 1 ≤ s.width ∧ 1 ≤ s.height ∧
      (∀ w ∈ s.altWidth, 1 ≤ w) ∧ (∀ x ∈ s.altHeight, 1 ≤ x))
    (h : generatePattern W H specs rng = some ts) :
    (∀ t ∈ ts, 0 ≤ t.row ∧ t.row + t.height ≤ H ∧ t.col + t.width ≤ W) ∧
    (ValidRng rng →
      (∀ s ∈ specs, 0 ≤ (getNormalizedTilePosition W H s false).col ∧
        0 ≤ (getNormalizedTilePosition W H s true).col) →
      ∀ t ∈ ts, 0 ≤ t.col) := by
  obtain ⟨strat, fx, occ1, rd, occ2, n2, fl, l, h1, h2, h3, hts, hsubl, hfx, hval, hrd,
    hflsub, hfl, -⟩ := generatePattern_segments h
  have hfl_pos : ∀ t ∈ fl, (0 ≤ t.row ∧ t.row < H) ∧ (0 ≤ t.col ∧ t.col < W) := by
    intro t ht
    have hp : (t.row, t.col) ∈ fl.map fun t => (t.row, t.col) :=
      List.mem_map.mpr ⟨t, ht, rfl⟩
    have := mem_gridCellsRowMajor.mp (hflsub.subset hp)
    exact ⟨⟨this.1.1, this.1.2⟩, this.2.1, this.2.2⟩
  constructor
  · intro t ht
    rw [hts] at ht
    rcases List.mem_append.mp ht with ht' | htfl
    · rcases List.mem_append.mp ht' with htfx | htrd
      · rw [hfx] at htfx
        obtain ⟨s, hs, rfl⟩ := List.mem_map.mp htfx
        obtain ⟨hw1, hh1, haw, hah⟩ := hdims s (hsubl.subset hs)
        obtain ⟨hpw, hph⟩ :=
          getNormalizedTilePosition_dims (strategyUsesAlt strat) hw1 hh1 haw hah
        obtain ⟨o, hv⟩ := hval s hs
        obtain ⟨hb1, hb2, hcp⟩ := isValidPlacement_true hv
        have hr0 := canPlaceTile_true_row_nonneg hpw hph hcp
        simp only [placedFixedTile, createTileFromFixed]
        exact ⟨hr0, by omega, by omega⟩
      · obtain ⟨-, -, -, -, -, e6, e7, e8, -⟩ := hrd t htrd
        exact ⟨e6, e7, e8⟩
    · obtain ⟨e1, e2, -⟩ := hfl t htfl
      have := hfl_pos t htfl
      rw [e1, e2]
      exact ⟨by omega, by omega, by omega⟩
  · intro hrng hcols t ht
    rw [hts] at ht
    rcases List.mem_append.mp ht with ht' | htfl
    · rcases List.mem_append.mp ht' with htfx | htrd
      · rw [hfx] at htfx
        obtain ⟨s, hs, rfl⟩ := List.mem_map.mp htfx
        have hc := hcols s (hsubl.subset hs)
        simp only [placedFixedTile, createTileFromFixed]
        cases hu : strategyUsesAlt strat
        · exact hc.1
        · exact hc.2
      · obtain ⟨-, -, -, -, -, -, -, -, n, -, hcol⟩ := hrd t htrd
        rw [hcol]
        refine Int.floor_nonneg.mpr (mul_nonneg (hrng _).1 ?_)
        exact_mod_cast (by omega : (0 : Int) ≤ W)
    · exact (hfl_pos t htfl).2.1

/-- C2 counterexample: the spec at column `-2` yields a returned tile with
`col = -1 < 0` on a `2 × 2` grid. -/
theorem claim2_counterexample :
    ∃ ts : List Tile, generatePattern 2 2 [specNeg] zeroRng = some ts ∧
      ∃ t ∈ ts, t.col < 0 :=
  ⟨runBTiles, generatePattern_runB,
    ⟨{ row := 0, col := -1, width := 1, height := 1, color := 9 }, by decide, by decide⟩⟩

/-- C2 witness: the bounds theorem at the evaluated `2 × 2` run with no fixed
specs (both hypotheses about specs hold vacuously; the RNG is valid). -/
theorem claim2_witness :
    ((1 : Int) ≤ 2) ∧ generatePattern 2 2 [] zeroRng = some runATiles ∧
    ((∀ t ∈ runATiles, 0 ≤ t.row ∧ t.row + t.height ≤ 2 ∧ t.col + t.width ≤ 2) ∧
     (ValidRng zeroRng →
       (∀ s ∈ ([] : List FixedTile), 0 ≤ (getNormalizedTilePosition 2 2 s false).col ∧
         0 ≤ (getNormalizedTilePosition 2 2 s true).col) →
       ∀ t ∈ runATiles, 0 ≤ t.col)) :=
  ⟨by decide, generatePattern_runA,
    claim2_bounds (by decide) (by decide) (by simp) generatePattern_runA⟩

/-- C3 (amended): whenever every fixed tile's primary rectangle individually
fits the usable span of the empty grid — which is all `determinePlacementStrategy`
tests, since its feasibility checks run against the freshly reset (empty)
occupancy — the strategy is PRIMARY even if the primary rectangles mutually
overlap.  All fixed tiles that do get placed then sit at their normalized
primary coordinates (overlapping later tiles are silently dropped); the
ALTERNATE strategy is never selected by mutual overlap. -/
theorem claim3_individual_fit_forces_primary {W H : Int} {specs : List FixedTile}
    (hall : ∀ s ∈ specs, checkPrimary W H resetGrid s = some true) :
    determinePlacementStrategy W H resetGrid specs = some Strategy.primary ∧
    ∀ (rng : ℕ → ℚ) (ts : List Tile), generatePattern W H specs rng = some ts →
      ∃ l : List FixedTile, l.Sublist specs ∧
        ∃ rest : List Tile, ts = l.map (fun s => placedFixedTile W H s false) ++ rest ∧
          ∀ t ∈ rest, t.text = none ∧ t.url = none := by
  have hdet := determine_primary_of_all (everyCheck_all_true hall)
  refine ⟨hdet, fun rng ts h => ?_⟩
  obtain ⟨strat, fx, occ1, rd, occ2, n2, fl, l, h1, h2, h3, hts, hsubl, hfx, -, hrd,
    -, hfl, -⟩ := generatePattern_segments h
  obtain rfl : strat = Strategy.primary := by
    rw [hdet] at h1
    exact (Option.some.inj h1).symm
  refine ⟨l, hsubl, rd ++ fl, ?_, ?_⟩
  · rw [hts, hfx, List.append_assoc]
    rfl
  · intro t ht
    rcases List.mem_append.mp ht with ht' | ht'
    · obtain ⟨e1, e2, -⟩ := hrd t ht'
      exact ⟨e1, e2⟩
    · obtain ⟨-, -, e3, e4, -⟩ := hfl t ht'
      exact ⟨e3, e4⟩

/-- C3 counterexample: on a `5 × 3` grid, `specA` and `specB` have overlapping
primary rectangles (both cover cell `(1,2)`), and each alternate individually
fits while the two alternates do not intersect — yet the strategy is PRIMARY,
not ALTERNATE, and the generated pattern contains `specA`'s tile at its
primary position while `specB`'s tile (text `"Projects"`) is absent
altogether. -/
theorem claim3_counterexample :
    coversCell (placedFixedTile 5 3 specA false) 1 2 ∧
    coversCell (placedFixedTile 5 3 specB false) 1 2 ∧
    checkAlternate 5 3 resetGrid specA = some true ∧
    checkAlternate 5 3 resetGrid specB = some true ∧
    tilesDisjoint (placedFixedTile 5 3 specA true) (placedFixedTile 5 3 specB true) ∧
    determinePlacementStrategy 5 3 resetGrid [specA, specB] = some Strategy.primary ∧
    ∃ ts : List Tile, generatePattern 5 3 [specA, specB] zeroRng = some ts ∧
      placedFixedTile 5 3 specA false ∈ ts ∧
      ∀ t ∈ ts, t.text ≠ some "Projects" := by
  refine ⟨by decide, by decide, by decide, by decide, ?_, by decide, ?_⟩
  · intro r c h1 h2
    have e1 : placedFixedTile 5 3 specA true =
        { row := 0, col := 0, width := 2, height := 1, color := 10,
          text := some "About" } := by decide
    have e2 : placedFixedTile 5 3 specB true =
        { row := 0, col := 2, width := 2, height := 1, color := 10,
          text := some "Projects" } := by decide
    rw [e1] at h1
    rw [e2] at h2
    obtain ⟨a1, a2, a3, a4⟩ := h1
    obtain ⟨b1, b2, b3, b4⟩ := h2
    simp only at a1 a2 a3 a4 b1 b2 b3 b4
    omega
  · have h2' : placeFixedTiles 5 3 [specA, specB] Strategy.primary [] resetGrid =
        some ([placedFixedTile 5 3 specA false], [(1, 1), (1, 2)]) := by decide
    have h3 := placeRandomTiles_zeroRng_free (W := 5) (H := 3)
      [placedFixedTile 5 3 specA false] [(1, 1), (1, 2)] 0 (by decide) (by decide)
    obtain ⟨out, heq, hsub, hprops⟩ := fillFold_char zeroRng (gridCellsRowMajor 5 3)
      ([placedFixedTile 5 3 specA false] ++
        [{ row := 0, col := 0, width := 1, height := 1, color := 1 }])
      (placeTile [(1, 1), (1, 2)] 0 0 1 1) (0 + 4 + 3 * 999)
    have hts : (fillEmptyCells 5 3 zeroRng
        ([placedFixedTile 5 3 specA false] ++
          [{ row := 0, col := 0, width := 1, height := 1, color := 1 }])
        (placeTile [(1, 1), (1, 2)] 0 0 1 1) (0 + 4 + 3 * 999)).1 =
        ([placedFixedTile 5 3 specA false] ++
          [{ row := 0, col := 0, width := 1, height := 1, color := 1 }]) ++ out := by
      unfold fillEmptyCells
      rw [heq]
    refine ⟨_, generatePattern_build Strategy.primary (by decide) h2' h3, ?_, ?_⟩
    · rw [hts]
      exact List.mem_append_left _ (List.mem_append_left _ (List.mem_singleton_self _))
    · intro t ht
      rw [hts] at ht
      rcases List.mem_append.mp ht with ht' | ht'
      · rcases List.mem_append.mp ht' with ht'' | ht''
        · rw [List.mem_singleton] at ht''
          subst ht''
          decide
        · rw [List.mem_singleton] at ht''
          subst ht''
          decide
      · obtain ⟨-, -, e3, -⟩ := hprops t ht'
        rw [e3]
        simp

/-- C3 witness: the amended theorem at the concrete grid `5 × 3` with the two
mutually overlapping (but individually fitting) specs. -/
theorem claim3_witness :
    (∀ s ∈ [specA, specB], checkPrimary 5 3 resetGrid s = some true) ∧
    (determinePlacementStrategy 5 3 resetGrid [specA, specB] = some Strategy.primary ∧
     ∀ (rng : ℕ → ℚ) (ts : List Tile), generatePattern 5 3 [specA, specB] rng = some ts →
       ∃ l : List FixedTile, l.Sublist [specA, specB] ∧
         ∃ rest : List Tile, ts = l.map (fun s => placedFixedTile 5 3 s false) ++ rest ∧
           ∀ t ∈ rest, t.text = none ∧ t.url = none) :=
  ⟨by decide, claim3_individual_fit_forces_primary (by decide)⟩

/-- C5 (amended): in a completed FALLBACK pass, the only fixed tile that can
appear in the output is the first spec whose text is exactly
`"Charlie Beutter"`, placed at its normalized primary position if it
individually fits; all other fixed tiles are absent (every non-fixed output
tile carries no text and no url), and if the essential tile does not fit the
output simply contains no fixed tile.  (The unconditional "completes normally
with no error" part of the claim is false: if the essential tile's validity
probe itself faults — a normalized primary row below zero — the whole pass
throws; see the counterexample.) -/
theorem claim5_fallback_only_essential {W H : Int} {specs : List FixedTile} {rng : ℕ → ℚ}
    {ts : List Tile}
    (hstrat : determinePlacementStrategy W H resetGrid specs = some Strategy.fallback)
    (h : generatePattern W H specs rng = some ts) :
    ∃ fx rest : List Tile, ts = fx ++ rest ∧
      (∀ t ∈ rest, t.text = none ∧ t.url = none) ∧
      ((fx = [] ∧ ∀ ch, specs.find? (fun t => t.text == some "Charlie Beutter") = some ch →
          isValidPlacement W H resetGrid (getNormalizedTilePosition W H ch false).row
            (getNormalizedTilePosition W H ch false).col
            (getNormalizedTilePosition W H ch false).width
            (getNormalizedTilePosition W H ch false).height = some false) ∨
       (∃ ch, specs.find? (fun t => t.text == some "Charlie Beutter") = some ch ∧
          isValidPlacement W H resetGrid (getNormalizedTilePosition W H ch false).row
            (getNormalizedTilePosition W H ch false).col
            (getNormalizedTilePosition W H ch false).width
            (getNormalizedTilePosition W H ch false).height = some true ∧
          fx = [placedFixedTile W H ch false])) := by
  obtain ⟨strat, fx, occ1, rd, occ2, n2, fl, l, h1, h2, h3, hts, -, -, -, hrd, -, hfl, -⟩ :=
    generatePattern_segments h
  obtain rfl : strat = Strategy.fallback := by
    rw [hstrat] at h1
    exact (Option.some.inj h1).symm
  refine ⟨fx, rd ++ fl, by rw [hts, List.append_assoc], ?_, ?_⟩
  · intro t ht
    rcases List.mem_append.mp ht with ht' | ht'
    · obtain ⟨e1, e2, -⟩ := hrd t ht'
      exact ⟨e1, e2⟩
    · obtain ⟨-, -, e3, e4, -⟩ := hfl t ht'
      exact ⟨e3, e4⟩
  · rcases placeEssentialTiles_char h2 with ⟨hout, -, hprobe⟩ | ⟨ch, hf, hv, hout⟩
    · exact Or.inl ⟨hout, hprobe⟩
    · exact Or.inr ⟨ch, hf, hv, by simpa using hout⟩

/-- C5 counterexample: a FALLBACK pass need not complete.  With a clean-miss
blocker first and an essential tile whose primary row normalizes to `-3` on a
`3 × 3` grid, the strategy is FALLBACK, but placing the essential tile makes
`canPlaceTile` read a missing grid row and throw — generation does not
complete, contradicting the claim's "generation still completes normally with
no error". -/
theorem claim5_counterexample :
    determinePlacementStrategy 3 3 resetGrid [blockerSpec, charlieCrashSpec] =
      some Strategy.fallback ∧
    generatePattern 3 3 [blockerSpec, charlieCrashSpec] zeroRng = none := by
  refine ⟨by decide, by decide⟩

/-- C5 witness: the amended theorem at the fallback run whose essential tile
(4 cells wide) does not fit the `2 × 2` grid: generation completes with no
fixed tile in the output. -/
theorem claim5_witness :
    determinePlacementStrategy 2 2 resetGrid [charlieSpec] = some Strategy.fallback ∧
    generatePattern 2 2 [charlieSpec] zeroRng = some runATiles ∧
    (∃ fx rest : List Tile, runATiles = fx ++ rest ∧
      (∀ t ∈ rest, t.text = none ∧ t.url = none) ∧
      ((fx = [] ∧ ∀ ch, [charlieSpec].find? (fun t => t.text == some "Charlie Beutter") =
            some ch →
          isValidPlacement 2 2 resetGrid (getNormalizedTilePosition 2 2 ch false).row
            (getNormalizedTilePosition 2 2 ch false).col
            (getNormalizedTilePosition 2 2 ch false).width
            (getNormalizedTilePosition 2 2 ch false).height = some false) ∨
       (∃ ch, [charlieSpec].find? (fun t => t.text == some "Charlie Beutter") = some ch ∧
          isValidPlacement 2 2 resetGrid (getNormalizedTilePosition 2 2 ch false).row
            (getNormalizedTilePosition 2 2 ch false).col
            (getNormalizedTilePosition 2 2 ch false).width
            (getNormalizedTilePosition 2 2 ch false).height = some true ∧
          fx = [placedFixedTile 2 2 ch false]))) :=
  ⟨by decide, generatePattern_runC,
    claim5_fallback_only_essential (by decide) generatePattern_runC⟩

/-- C8: the one-cell usable-span margin applies exactly to fixed tiles.  In
any completed pass the output splits into the fixed segment, whose tiles all
satisfy `row+height ≤ gridHeight−1` and `col+width ≤ gridWidth−1`, and the
random/gap-filler rest, whose tiles are only bounded by `row+height ≤
gridHeight` and `col+width ≤ gridWidth` — and some tile of the rest really
does occupy the bottom-right cell `(gridHeight−1, gridWidth−1)`, which no
fixed tile can reach. -/
theorem claim8_margin_asymmetry {W H : Int} {specs : List FixedTile} {rng : ℕ → ℚ}
    {ts : List Tile} (hW : 1 ≤ W) (hH : 1 ≤ H)
    (h : generatePattern W H specs rng = some ts) :
    ∃ fx rest : List Tile, ts = fx ++ rest ∧
      (∀ t ∈ fx, t.row + t.height ≤ H - 1 ∧ t.col + t.width ≤ W - 1) ∧
      (∀ t ∈ rest, t.row + t.height ≤ H ∧ t.col + t.width ≤ W) ∧
      ∃ t ∈ rest, coversCell t (H - 1) (W - 1) := by
  obtain ⟨strat, fx, occ1, rd, occ2, n2, fl, l, h1, h2, h3, hts, hsubl, hfx, hval, hrd,
    hflsub, hfl, -⟩ := generatePattern_segments h
  have hfxbound : ∀ t ∈ fx, t.row + t.height ≤ H - 1 ∧ t.col + t.width ≤ W - 1 := by
    intro t ht
    rw [hfx] at ht
    obtain ⟨s, hs, rfl⟩ := List.mem_map.mp ht
    obtain ⟨o, hv⟩ := hval s hs
    obtain ⟨hb1, hb2, -⟩ := isValidPlacement_true hv
    simp only [placedFixedTile, createTileFromFixed]
    omega
  have hrestbound : ∀ t ∈ rd ++ fl, t.row + t.height ≤ H ∧ t.col + t.width ≤ W := by
    intro t ht
    rcases List.mem_append.mp ht with ht' | ht'
    · obtain ⟨-, -, -, -, -, -, e7, e8, -⟩ := hrd t ht'
      exact ⟨e7, e8⟩
    · obtain ⟨e1, e2, -⟩ := hfl t ht'
      have hp : (t.row, t.col) ∈ fl.map fun t => (t.row, t.col) :=
        List.mem_map.mpr ⟨t, ht', rfl⟩
      have := mem_gridCellsRowMajor.mp (hflsub.subset hp)
      rw [e1, e2]
      exact ⟨by omega, by omega⟩
  obtain ⟨occF, inv, hfull⟩ := generatePattern_inv h
  obtain ⟨t, htmem, htcov⟩ := (inv.1 (H - 1) (W - 1)).mp
    (hfull (H - 1) (W - 1) (by omega) (by omega) (by omega) (by omega))
  refine ⟨fx, rd ++ fl, by rw [hts, List.append_assoc], hfxbound, hrestbound, t, ?_, htcov⟩
  rw [hts, List.append_assoc] at htmem
  rcases List.mem_append.mp htmem with htfx | htrest
  · exfalso
    obtain ⟨-, hlt, -, -⟩ := htcov
    have := (hfxbound t htfx).1
    omega
  · exact htrest

/-- C8 witness: the margin theorem at the evaluated `2 × 2` run (the fixed
segment is empty; the random tile at `(0,0)` and the fillers may reach the
last row and column, and the filler at `(1,1)` covers the bottom-right
cell). -/
theorem claim8_witness :
    ((1 : Int) ≤ 2) ∧ generatePattern 2 2 [] zeroRng = some runATiles ∧
    (∃ fx rest : List Tile, runATiles = fx ++ rest ∧
      (∀ t ∈ fx, t.row + t.height ≤ 2 - 1 ∧ t.col + t.width ≤ 2 - 1) ∧
      (∀ t ∈ rest, t.row + t.height ≤ 2 ∧ t.col + t.width ≤ 2) ∧
      ∃ t ∈ rest, coversCell t (2 - 1) (2 - 1)) :=
  ⟨by decide, generatePattern_runA,
    claim8_margin_asymmetry (by decide) (by decide) generatePattern_runA⟩

/-- C10: the returned list consists of three contiguous segments — first the
fixed tiles, drawn in input-spec order from a subsequence of the specs and
placed at the strategy-selected positions; then the random-phase tiles in
placement order; finally the gap fillers, unit tiles in row-major order of
the cells still unoccupied after the random phase (their position list is a
subsequence of the row-major cell enumeration, and every in-grid cell left
unoccupied appears in it). -/
theorem claim10_output_segments {W H : Int} {specs : List FixedTile} {rng : ℕ → ℚ}
    {ts : List Tile} (h : generatePattern W H specs rng = some ts) :
    ∃ (strat : Strategy) (fx : List Tile) (occ1 : Occ) (rd : List Tile) (occ2 : Occ)
      (n2 : ℕ) (fl : List Tile),
      determinePlacementStrategy W H resetGrid specs = some strat ∧
      placeFixedTiles W H specs strat [] resetGrid = some (fx, occ1) ∧
      placeRandomTiles W H rng MAX_PLACEMENT_ATTEMPTS ([], occ1, 0) = some (rd, occ2, n2) ∧
      ts = fx ++ rd ++ fl ∧
      (∃ l : List FixedTile, l.Sublist specs ∧
        fx = l.map fun s => placedFixedTile W H s (strategyUsesAlt strat)) ∧
      (∀ t ∈ rd, RandomPlaced W H rng t) ∧
      (fl.map (fun t => (t.row, t.col))).Sublist (gridCellsRowMajor W H) ∧
      (∀ t ∈ fl, t.width = 1 ∧ t.height = 1 ∧ (t.row, t.col) ∉ occ2) ∧
      (∀ p ∈ gridCellsRowMajor W H, p ∉ occ2 → p ∈ fl.map fun t => (t.row, t.col)) := by
  obtain ⟨strat, fx, occ1, rd, occ2, n2, fl, l, h1, h2, h3, hts, hsubl, hfx, -, hrd,
    hflsub, hfl, hcomp⟩ := generatePattern_segments h
  exact ⟨strat, fx, occ1, rd, occ2, n2, fl, h1, h2, h3, hts, ⟨l, hsubl, hfx⟩, hrd, hflsub,
    fun t ht => ⟨(hfl t ht).1, (hfl t ht).2.1, (hfl t ht).2.2.2.2.2⟩, hcomp⟩

/-- C10 witness: the segment decomposition at the evaluated `2 × 2` run. -/
theorem claim10_witness :
    generatePattern 2 2 [] zeroRng = some runATiles ∧
    (∃ (strat : Strategy) (fx : List Tile) (occ1 : Occ) (rd : List Tile) (occ2 : Occ)
      (n2 : ℕ) (fl : List Tile),
      determinePlacementStrategy 2 2 resetGrid [] = some strat ∧
      placeFixedTiles 2 2 [] strat [] resetGrid = some (fx, occ1) ∧
      placeRandomTiles 2 2 zeroRng MAX_PLACEMENT_ATTEMPTS ([], occ1, 0) =
        some (rd, occ2, n2) ∧
      runATiles = fx ++ rd ++ fl ∧
      (∃ l : List FixedTile, l.Sublist [] ∧
        fx = l.map fun s => placedFixedTile 2 2 s (strategyUsesAlt strat)) ∧
      (∀ t ∈ rd, RandomPlaced 2 2 zeroRng t) ∧
      (fl.map (fun t => (t.row, t.col))).Sublist (gridCellsRowMajor 2 2) ∧
      (∀ t ∈ fl, t.width = 1 ∧ t.height = 1 ∧ (t.row, t.col) ∉ occ2) ∧
      (∀ p ∈ gridCellsRowMajor 2 2, p ∉ occ2 → p ∈ fl.map fun t => (t.row, t.col))) :=
  ⟨generatePattern_runA, claim10_output_segments generatePattern_runA⟩

end Claims

end Mosaic
